import Mathlib

/-!
# Verification of the SIMD BLAKE2s core (Merkle committer, channel, grinder, domain iterator)

Shallow embedding of `core/backend/simd/blake2s.rs`, `core/backend/simd/grind.rs`,
`core/backend/simd/domain.rs`, `core/channel/blake2s.rs` and
`core/vcs/blake2_merkle.rs`, together with spec-modelled definitions for the
repository code that is referenced but not present in the source tree
(the scalar reference compressor `blake2s_ref.rs`, the byte-level hasher
`blake2_hash.rs`, the M31 field `fields/m31.rs`, `circle.rs` and `utils.rs`).

Machine integers are represented as `Nat` with explicit reduction `% 2^32`;
32-byte hashes are represented as their eight little-endian 32-bit words;
16-lane SIMD vectors are represented as functions `Nat → Nat` (lanes `0..15`).
-/

/-! ## Definitions -/

/-! ### 32-bit scalar operations -/

/-- `2^32`, the modulus of `u32` arithmetic. -/
def U32M : Nat := 4294967296

/-- Wrapping `u32` addition. -/
def add32 (a b : Nat) : Nat := (a + b) % U32M

/-- Bitwise `u32` xor. -/
def xor32 (a b : Nat) : Nat := Nat.xor a b

/-- `u32` rotate-right by `n`: `(x >> n) | (x << (32 - n))`, wrapping the shift. -/
def rotr (n x : Nat) : Nat := Nat.lor (x >>> n) ((x <<< (32 - n)) % U32M)

/-! ### 16-lane vectors (`u32x16`), represented as functions from the lane index -/

/-- A sixteen-lane vector of `u32`; only lanes `0..15` are meaningful. -/
abbrev Vec16 : Type := Nat → Nat

/-- Lane-wise wrapping addition (`+` on `u32x16`). -/
def vadd (a b : Vec16) : Vec16 := fun j => add32 (a j) (b j)

/-- Lane-wise xor (`^` on `u32x16`). -/
def vxor (a b : Vec16) : Vec16 := fun j => xor32 (a j) (b j)

/-- Lane-wise rotate-right (`rotate` in `simd/blake2s.rs`). -/
def vrot (n : Nat) (a : Vec16) : Vec16 := fun j => rotr n (a j)

/-- `u32x16::splat`. -/
def vsplat (x : Nat) : Vec16 := fun _ => x

/-! ### BLAKE2s constants (`IV`, `SIGMA` from `simd/blake2s.rs`) -/

/-- The BLAKE2s initialization vector (`IV` in `simd/blake2s.rs`). -/
def IV : List Nat :=
  [0x6A09E667, 0xBB67AE85, 0x3C6EF372, 0xA54FF53A,
   0x510E527F, 0x9B05688C, 0x1F83D9AB, 0x5BE0CD19]

/-- `IV[i]`. -/
def iv (i : Nat) : Nat := IV.getD i 0

/-- The BLAKE2s message schedule (`SIGMA` in `simd/blake2s.rs`). -/
def SIGMA : List (List Nat) :=
  [[0, 1, 2, 3, 4, 5, 6, 7, 8, 9, 10, 11, 12, 13, 14, 15],
   [14, 10, 4, 8, 9, 15, 13, 6, 1, 12, 0, 2, 11, 7, 5, 3],
   [11, 8, 12, 0, 5, 2, 15, 13, 10, 14, 3, 6, 7, 1, 9, 4],
   [7, 9, 3, 1, 13, 12, 11, 14, 2, 6, 5, 10, 4, 0, 15, 8],
   [9, 0, 5, 7, 2, 4, 10, 15, 14, 1, 11, 12, 6, 8, 3, 13],
   [2, 12, 6, 10, 0, 11, 8, 3, 4, 13, 7, 5, 15, 14, 1, 9],
   [12, 5, 1, 15, 14, 13, 4, 10, 0, 7, 6, 3, 9, 2, 8, 11],
   [13, 11, 7, 14, 12, 1, 3, 9, 5, 0, 15, 4, 8, 6, 2, 10],
   [6, 15, 14, 9, 11, 3, 0, 8, 12, 2, 13, 7, 1, 4, 10, 5],
   [10, 2, 8, 4, 7, 6, 1, 5, 15, 11, 9, 14, 3, 12, 13, 0]]

/-- `SIGMA[r][i]`. -/
def sig (r i : Nat) : Nat := (SIGMA.getD r []).getD i 0

/-! ### The working-vector state (16 words) and the hash state (8 words) -/

/-- The sixteen-word working vector `v` of a BLAKE2s compression, with entries
in an arbitrary carrier (`Nat` for the scalar compressor, `Vec16` for the
sixteen-lane compressor). -/
structure BlkSt (α : Type) where
  v0 : α
  v1 : α
  v2 : α
  v3 : α
  v4 : α
  v5 : α
  v6 : α
  v7 : α
  v8 : α
  v9 : α
  v10 : α
  v11 : α
  v12 : α
  v13 : α
  v14 : α
  v15 : α

/-- The eight-word hash state `h` of BLAKE2s, with entries in an arbitrary
carrier (`Nat` for the scalar compressor, `Vec16` for the sixteen-lane one). -/
structure HSt (α : Type) where
  h0 : α
  h1 : α
  h2 : α
  h3 : α
  h4 : α
  h5 : α
  h6 : α
  h7 : α

/-- Lane `j` of a sixteen-lane working vector. -/
def BlkSt.lane (s : BlkSt Vec16) (j : Nat) : BlkSt Nat :=
  ⟨s.v0 j, s.v1 j, s.v2 j, s.v3 j, s.v4 j, s.v5 j, s.v6 j, s.v7 j,
   s.v8 j, s.v9 j, s.v10 j, s.v11 j, s.v12 j, s.v13 j, s.v14 j, s.v15 j⟩

/-- Lane `j` of a sixteen-lane hash state. -/
def HSt.lane (s : HSt Vec16) (j : Nat) : HSt Nat :=
  ⟨s.h0 j, s.h1 j, s.h2 j, s.h3 j, s.h4 j, s.h5 j, s.h6 j, s.h7 j⟩

/-- Lane `j` of a sixteen-lane message (sixteen `u32x16` words). -/
def msgLane (m : Nat → Vec16) (j : Nat) : Nat → Nat := fun i => m i j

/-! ### The sixteen-lane round and compression (`round`, `compress16` from
`simd/blake2s.rs`), translated statement by statement -/

/-- One BLAKE2s round over sixteen lanes (`round` in `simd/blake2s.rs`),
translated statement by statement from the source. -/
def vroundFn (v : BlkSt Vec16) (m : Nat → Vec16) (r : Nat) : BlkSt Vec16 :=
  let v0 := vadd v.v0 (m (sig r 0))
  let v1 := vadd v.v1 (m (sig r 2))
  let v2 := vadd v.v2 (m (sig r 4))
  let v3 := vadd v.v3 (m (sig r 6))
  let v0 := vadd v0 v.v4
  let v1 := vadd v1 v.v5
  let v2 := vadd v2 v.v6
  let v3 := vadd v3 v.v7
  let v12 := vxor v.v12 v0
  let v13 := vxor v.v13 v1
  let v14 := vxor v.v14 v2
  let v15 := vxor v.v15 v3
  let v12 := vrot 16 v12
  let v13 := vrot 16 v13
  let v14 := vrot 16 v14
  let v15 := vrot 16 v15
  let v8 := vadd v.v8 v12
  let v9 := vadd v.v9 v13
  let v10 := vadd v.v10 v14
  let v11 := vadd v.v11 v15
  let v4 := vxor v.v4 v8
  let v5 := vxor v.v5 v9
  let v6 := vxor v.v6 v10
  let v7 := vxor v.v7 v11
  let v4 := vrot 12 v4
  let v5 := vrot 12 v5
  let v6 := vrot 12 v6
  let v7 := vrot 12 v7
  let v0 := vadd v0 (m (sig r 1))
  let v1 := vadd v1 (m (sig r 3))
  let v2 := vadd v2 (m (sig r 5))
  let v3 := vadd v3 (m (sig r 7))
  let v0 := vadd v0 v4
  let v1 := vadd v1 v5
  let v2 := vadd v2 v6
  let v3 := vadd v3 v7
  let v12 := vxor v12 v0
  let v13 := vxor v13 v1
  let v14 := vxor v14 v2
  let v15 := vxor v15 v3
  let v12 := vrot 8 v12
  let v13 := vrot 8 v13
  let v14 := vrot 8 v14
  let v15 := vrot 8 v15
  let v8 := vadd v8 v12
  let v9 := vadd v9 v13
  let v10 := vadd v10 v14
  let v11 := vadd v11 v15
  let v4 := vxor v4 v8
  let v5 := vxor v5 v9
  let v6 := vxor v6 v10
  let v7 := vxor v7 v11
  let v4 := vrot 7 v4
  let v5 := vrot 7 v5
  let v6 := vrot 7 v6
  let v7 := vrot 7 v7
  let v0 := vadd v0 (m (sig r 8))
  let v1 := vadd v1 (m (sig r 10))
  let v2 := vadd v2 (m (sig r 12))
  let v3 := vadd v3 (m (sig r 14))
  let v0 := vadd v0 v5
  let v1 := vadd v1 v6
  let v2 := vadd v2 v7
  let v3 := vadd v3 v4
  let v15 := vxor v15 v0
  let v12 := vxor v12 v1
  let v13 := vxor v13 v2
  let v14 := vxor v14 v3
  let v15 := vrot 16 v15
  let v12 := vrot 16 v12
  let v13 := vrot 16 v13
  let v14 := vrot 16 v14
  let v10 := vadd v10 v15
  let v11 := vadd v11 v12
  let v8 := vadd v8 v13
  let v9 := vadd v9 v14
  let v5 := vxor v5 v10
  let v6 := vxor v6 v11
  let v7 := vxor v7 v8
  let v4 := vxor v4 v9
  let v5 := vrot 12 v5
  let v6 := vrot 12 v6
  let v7 := vrot 12 v7
  let v4 := vrot 12 v4
  let v0 := vadd v0 (m (sig r 9))
  let v1 := vadd v1 (m (sig r 11))
  let v2 := vadd v2 (m (sig r 13))
  let v3 := vadd v3 (m (sig r 15))
  let v0 := vadd v0 v5
  let v1 := vadd v1 v6
  let v2 := vadd v2 v7
  let v3 := vadd v3 v4
  let v15 := vxor v15 v0
  let v12 := vxor v12 v1
  let v13 := vxor v13 v2
  let v14 := vxor v14 v3
  let v15 := vrot 8 v15
  let v12 := vrot 8 v12
  let v13 := vrot 8 v13
  let v14 := vrot 8 v14
  let v10 := vadd v10 v15
  let v11 := vadd v11 v12
  let v8 := vadd v8 v13
  let v9 := vadd v9 v14
  let v5 := vxor v5 v10
  let v6 := vxor v6 v11
  let v7 := vxor v7 v8
  let v4 := vxor v4 v9
  let v5 := vrot 7 v5
  let v6 := vrot 7 v6
  let v7 := vrot 7 v7
  let v4 := vrot 7 v4
  ⟨v0, v1, v2, v3, v4, v5, v6, v7, v8, v9, v10, v11, v12, v13, v14, v15⟩

/-- Compression of sixteen BLAKE2s instances (`compress16` in
`simd/blake2s.rs`): the working vector is initialized from `h` and the IV with
counter and finalization lane-vectors xored in at positions `12..16`, ten
sigma-scheduled rounds are applied, and the output is `h ^ v[0..8] ^ v[8..16]`. -/
def compress16 (h : HSt Vec16) (m : Nat → Vec16)
    (countLow countHigh lastblock lastnode : Vec16) : HSt Vec16 :=
  let v : BlkSt Vec16 :=
    ⟨h.h0, h.h1, h.h2, h.h3, h.h4, h.h5, h.h6, h.h7,
     vsplat (iv 0), vsplat (iv 1), vsplat (iv 2), vsplat (iv 3),
     vxor (vsplat (iv 4)) countLow, vxor (vsplat (iv 5)) countHigh,
     vxor (vsplat (iv 6)) lastblock, vxor (vsplat (iv 7)) lastnode⟩
  let v := vroundFn v m 0
  let v := vroundFn v m 1
  let v := vroundFn v m 2
  let v := vroundFn v m 3
  let v := vroundFn v m 4
  let v := vroundFn v m 5
  let v := vroundFn v m 6
  let v := vroundFn v m 7
  let v := vroundFn v m 8
  let v := vroundFn v m 9
  ⟨vxor h.h0 (vxor v.v0 v.v8), vxor h.h1 (vxor v.v1 v.v9),
   vxor h.h2 (vxor v.v2 v.v10), vxor h.h3 (vxor v.v3 v.v11),
   vxor h.h4 (vxor v.v4 v.v12), vxor h.h5 (vxor v.v5 v.v13),
   vxor h.h6 (vxor v.v6 v.v14), vxor h.h7 (vxor v.v7 v.v15)⟩

/-! ### The scalar reference compressor.

Modelled from the spec: the scalar reference BLAKE2s compressor
(`core/vcs/blake2s_ref.rs`, absent from the source tree) performs, per the
spec, "exactly the BLAKE2s round: eight G-functions per round, using the
message schedule σ[r] over 10 rounds", where "G mixes four state words with
two message words via add/xor/rotate-right by (16, 12, 8, 7)", and the output
is `h ⊕ v[0..8] ⊕ v[8..16]` with `v` initialized from `h` and the IV with
counter/finalization words xored in at positions `12..16`. -/

/-- The BLAKE2s G function on four state words `a b c d` and two message words
`x y`, returning the updated `(a, b, c, d)`, in the operand order of the
scalar reference port (the message word is added before the paired state
word, as in the vectorized round).
Modelled from the spec: "G mixes four state words with two message words via
add/xor/rotate-right by (16, 12, 8, 7)". -/
def gfun (a b c d x y : Nat) : Nat × Nat × Nat × Nat :=
  let a := add32 (add32 a x) b
  let d := rotr 16 (xor32 d a)
  let c := add32 c d
  let b := rotr 12 (xor32 b c)
  let a := add32 (add32 a y) b
  let d := rotr 8 (xor32 d a)
  let c := add32 c d
  let b := rotr 7 (xor32 b c)
  (a, b, c, d)

/-- The BLAKE2s G function in the operand order of the BLAKE2s RFC
(`a := a + b + x`). Modelled from the spec: "G mixes four state words with
two message words via add/xor/rotate-right by (16, 12, 8, 7)". -/
def gfunStd (a b c d x y : Nat) : Nat × Nat × Nat × Nat :=
  let a := add32 (add32 a b) x
  let d := rotr 16 (xor32 d a)
  let c := add32 c d
  let b := rotr 12 (xor32 b c)
  let a := add32 (add32 a b) y
  let d := rotr 8 (xor32 d a)
  let c := add32 c d
  let b := rotr 7 (xor32 b c)
  (a, b, c, d)

/-- One scalar BLAKE2s round as eight G-functions: the four column
G-functions followed by the four diagonal G-functions, with message words
scheduled by `SIGMA[r]`. Modelled from the spec: "eight G-functions per
round, using the message schedule σ[r]". -/
def sroundG (v : BlkSt Nat) (m : Nat → Nat) (r : Nat) : BlkSt Nat :=
  let c0 := gfun v.v0 v.v4 v.v8 v.v12 (m (sig r 0)) (m (sig r 1))
  let c1 := gfun v.v1 v.v5 v.v9 v.v13 (m (sig r 2)) (m (sig r 3))
  let c2 := gfun v.v2 v.v6 v.v10 v.v14 (m (sig r 4)) (m (sig r 5))
  let c3 := gfun v.v3 v.v7 v.v11 v.v15 (m (sig r 6)) (m (sig r 7))
  let d0 := gfun c0.1 c1.2.1 c2.2.2.1 c3.2.2.2 (m (sig r 8)) (m (sig r 9))
  let d1 := gfun c1.1 c2.2.1 c3.2.2.1 c0.2.2.2 (m (sig r 10)) (m (sig r 11))
  let d2 := gfun c2.1 c3.2.1 c0.2.2.1 c1.2.2.2 (m (sig r 12)) (m (sig r 13))
  let d3 := gfun c3.1 c0.2.1 c1.2.2.1 c2.2.2.2 (m (sig r 14)) (m (sig r 15))
  ⟨d0.1, d1.1, d2.1, d3.1,
   d3.2.1, d0.2.1, d1.2.1, d2.2.1,
   d2.2.2.1, d3.2.2.1, d0.2.2.1, d1.2.2.1,
   d1.2.2.2, d2.2.2.2, d3.2.2.2, d0.2.2.2⟩

/-- One scalar BLAKE2s round, unrolled statement by statement in the same
order as the vectorized `round` of `simd/blake2s.rs`.
Modelled from the spec: the scalar reference compressor
(`core/vcs/blake2s_ref.rs`, absent from the source tree) is the scalar port
of the same unrolled round. -/
def sround (v : BlkSt Nat) (m : Nat → Nat) (r : Nat) : BlkSt Nat :=
  let v0 := add32 v.v0 (m (sig r 0))
  let v1 := add32 v.v1 (m (sig r 2))
  let v2 := add32 v.v2 (m (sig r 4))
  let v3 := add32 v.v3 (m (sig r 6))
  let v0 := add32 v0 v.v4
  let v1 := add32 v1 v.v5
  let v2 := add32 v2 v.v6
  let v3 := add32 v3 v.v7
  let v12 := xor32 v.v12 v0
  let v13 := xor32 v.v13 v1
  let v14 := xor32 v.v14 v2
  let v15 := xor32 v.v15 v3
  let v12 := rotr 16 v12
  let v13 := rotr 16 v13
  let v14 := rotr 16 v14
  let v15 := rotr 16 v15
  let v8 := add32 v.v8 v12
  let v9 := add32 v.v9 v13
  let v10 := add32 v.v10 v14
  let v11 := add32 v.v11 v15
  let v4 := xor32 v.v4 v8
  let v5 := xor32 v.v5 v9
  let v6 := xor32 v.v6 v10
  let v7 := xor32 v.v7 v11
  let v4 := rotr 12 v4
  let v5 := rotr 12 v5
  let v6 := rotr 12 v6
  let v7 := rotr 12 v7
  let v0 := add32 v0 (m (sig r 1))
  let v1 := add32 v1 (m (sig r 3))
  let v2 := add32 v2 (m (sig r 5))
  let v3 := add32 v3 (m (sig r 7))
  let v0 := add32 v0 v4
  let v1 := add32 v1 v5
  let v2 := add32 v2 v6
  let v3 := add32 v3 v7
  let v12 := xor32 v12 v0
  let v13 := xor32 v13 v1
  let v14 := xor32 v14 v2
  let v15 := xor32 v15 v3
  let v12 := rotr 8 v12
  let v13 := rotr 8 v13
  let v14 := rotr 8 v14
  let v15 := rotr 8 v15
  let v8 := add32 v8 v12
  let v9 := add32 v9 v13
  let v10 := add32 v10 v14
  let v11 := add32 v11 v15
  let v4 := xor32 v4 v8
  let v5 := xor32 v5 v9
  let v6 := xor32 v6 v10
  let v7 := xor32 v7 v11
  let v4 := rotr 7 v4
  let v5 := rotr 7 v5
  let v6 := rotr 7 v6
  let v7 := rotr 7 v7
  let v0 := add32 v0 (m (sig r 8))
  let v1 := add32 v1 (m (sig r 10))
  let v2 := add32 v2 (m (sig r 12))
  let v3 := add32 v3 (m (sig r 14))
  let v0 := add32 v0 v5
  let v1 := add32 v1 v6
  let v2 := add32 v2 v7
  let v3 := add32 v3 v4
  let v15 := xor32 v15 v0
  let v12 := xor32 v12 v1
  let v13 := xor32 v13 v2
  let v14 := xor32 v14 v3
  let v15 := rotr 16 v15
  let v12 := rotr 16 v12
  let v13 := rotr 16 v13
  let v14 := rotr 16 v14
  let v10 := add32 v10 v15
  let v11 := add32 v11 v12
  let v8 := add32 v8 v13
  let v9 := add32 v9 v14
  let v5 := xor32 v5 v10
  let v6 := xor32 v6 v11
  let v7 := xor32 v7 v8
  let v4 := xor32 v4 v9
  let v5 := rotr 12 v5
  let v6 := rotr 12 v6
  let v7 := rotr 12 v7
  let v4 := rotr 12 v4
  let v0 := add32 v0 (m (sig r 9))
  let v1 := add32 v1 (m (sig r 11))
  let v2 := add32 v2 (m (sig r 13))
  let v3 := add32 v3 (m (sig r 15))
  let v0 := add32 v0 v5
  let v1 := add32 v1 v6
  let v2 := add32 v2 v7
  let v3 := add32 v3 v4
  let v15 := xor32 v15 v0
  let v12 := xor32 v12 v1
  let v13 := xor32 v13 v2
  let v14 := xor32 v14 v3
  let v15 := rotr 8 v15
  let v12 := rotr 8 v12
  let v13 := rotr 8 v13
  let v14 := rotr 8 v14
  let v10 := add32 v10 v15
  let v11 := add32 v11 v12
  let v8 := add32 v8 v13
  let v9 := add32 v9 v14
  let v5 := xor32 v5 v10
  let v6 := xor32 v6 v11
  let v7 := xor32 v7 v8
  let v4 := xor32 v4 v9
  let v5 := rotr 7 v5
  let v6 := rotr 7 v6
  let v7 := rotr 7 v7
  let v4 := rotr 7 v4
  ⟨v0, v1, v2, v3, v4, v5, v6, v7, v8, v9, v10, v11, v12, v13, v14, v15⟩

/-- The scalar BLAKE2s compression function.
Modelled from the spec: a working vector initialized from `h` and the IV with
counter/finalization words xored in at positions `12..16`, ten sigma-scheduled
rounds, output `h ⊕ v[0..8] ⊕ v[8..16]`. -/
def scompress (h : HSt Nat) (m : Nat → Nat)
    (countLow countHigh lastblock lastnode : Nat) : HSt Nat :=
  let v : BlkSt Nat :=
    ⟨h.h0, h.h1, h.h2, h.h3, h.h4, h.h5, h.h6, h.h7,
     iv 0, iv 1, iv 2, iv 3,
     xor32 (iv 4) countLow, xor32 (iv 5) countHigh,
     xor32 (iv 6) lastblock, xor32 (iv 7) lastnode⟩
  let v := sround v m 0
  let v := sround v m 1
  let v := sround v m 2
  let v := sround v m 3
  let v := sround v m 4
  let v := sround v m 5
  let v := sround v m 6
  let v := sround v m 7
  let v := sround v m 8
  let v := sround v m 9
  ⟨xor32 h.h0 (xor32 v.v0 v.v8), xor32 h.h1 (xor32 v.v1 v.v9),
   xor32 h.h2 (xor32 v.v2 v.v10), xor32 h.h3 (xor32 v.v3 v.v11),
   xor32 h.h4 (xor32 v.v4 v.v12), xor32 h.h5 (xor32 v.v5 v.v13),
   xor32 h.h6 (xor32 v.v6 v.v14), xor32 h.h7 (xor32 v.v7 v.v15)⟩

/-! ### Compression wrappers and initial states (`simd/blake2s.rs`) -/

/-- `ZEROS` from `simd/blake2s.rs`. -/
def ZEROS : Vec16 := vsplat 0

/-- `IV[0] ^ 0x01010020`, the first word of the leaf initial state, written
as its value (see `initial_word0_eq` below). -/
def IV0P : Nat := 0x6B08E647

/-- `INITIAL_STATE` from `simd/blake2s.rs`: the IV with the parameter word
`0x01010020` (no key, 32-byte output) xored into word 0, splat on 16 lanes. -/
def INITIAL_STATE : HSt Vec16 :=
  ⟨vsplat IV0P, vsplat (iv 1), vsplat (iv 2), vsplat (iv 3),
   vsplat (iv 4), vsplat (iv 5), vsplat (iv 6), vsplat (iv 7)⟩

/-- `compress_unfinalized` from `simd/blake2s.rs`: `t` is the number of
compressed bytes including the current block; the high counter word is zero
(the source notes `t >> 32` is 0 for its use case) and the cast `t as u32`
is the reduction `t % 2^32`. -/
def compress_unfinalized (state : HSt Vec16) (chunk : Nat → Vec16) (t : Nat) : HSt Vec16 :=
  compress16 state chunk (vsplat (t % U32M)) ZEROS ZEROS ZEROS

/-- `compress_finalize` from `simd/blake2s.rs`. -/
def compress_finalize (state : HSt Vec16) (last_block : Nat → Vec16) (t : Nat) : HSt Vec16 :=
  compress16 state last_block (vsplat (t % U32M)) ZEROS (vsplat 0xFFFFFFFF) ZEROS

/-- `hash_16` from `simd/blake2s.rs`: compresses and finalizes 16 instances
of BLAKE2s on single-block messages. -/
def hash_16 (msg_vecs : Nat → Vec16) (bytes_in_msg : Nat) : HSt Vec16 :=
  compress_finalize INITIAL_STATE msg_vecs bytes_in_msg

/-- The scalar initial state: IV with the parameter word `0x01010020` xored
into word 0. Modelled from the spec: "Initial state for leaves. IV with
parameter xor 0x01010020 at word 0 (no key, 32-byte output)". -/
def sInitialState : HSt Nat :=
  ⟨IV0P, iv 1, iv 2, iv 3, iv 4, iv 5, iv 6, iv 7⟩

/-! ### Transpose / untranspose permutations (`simd/blake2s.rs`) -/

/-- The low half of `std::simd` `deinterleave`: lane `i` holds element `2i`
of the concatenation of `a` and `b`. -/
def deinterleaveLo (a b : Vec16) : Vec16 :=
  fun i => if i < 8 then a (2 * i) else b (2 * (i - 8))

/-- The high half of `std::simd` `deinterleave`: lane `i` holds element
`2i + 1` of the concatenation of `a` and `b`. -/
def deinterleaveHi (a b : Vec16) : Vec16 :=
  fun i => if i < 8 then a (2 * i + 1) else b (2 * (i - 8) + 1)

/-- The low half of `std::simd` `interleave`: lane `i` holds `a (i/2)` for
even `i` and `b (i/2)` for odd `i`. -/
def interleaveLo (a b : Vec16) : Vec16 :=
  fun i => if i % 2 = 0 then a (i / 2) else b (i / 2)

/-- The high half of `std::simd` `interleave`: lanes continue with elements
`8 + i/2` of `a` and `b`. -/
def interleaveHi (a b : Vec16) : Vec16 :=
  fun i => if i % 2 = 0 then a (8 + i / 2) else b (8 + i / 2)

/-- One round of the message transpose of `transpose_msgs` in
`simd/blake2s.rs`: pairwise deinterleave of the 16 vectors. -/
def transposeMsgsRound (d : Nat → Vec16) : Nat → Vec16 :=
  fun idx =>
    if idx < 8 then deinterleaveLo (d (2 * idx)) (d (2 * idx + 1))
    else deinterleaveHi (d (2 * (idx - 8))) (d (2 * (idx - 8) + 1))

/-- `transpose_msgs` from `simd/blake2s.rs`: four rounds of the pairwise
deinterleave permutation (rotating the 8-bit word index right by one each
round). -/
def transpose_msgs (d : Nat → Vec16) : Nat → Vec16 :=
  transposeMsgsRound (transposeMsgsRound (transposeMsgsRound (transposeMsgsRound d)))

/-- One round of `untranspose_states` in `simd/blake2s.rs`: pairwise
interleave of the 8 state vectors. -/
def untransposeStatesRound (s : HSt Vec16) : HSt Vec16 :=
  ⟨interleaveLo s.h0 s.h4, interleaveHi s.h0 s.h4,
   interleaveLo s.h1 s.h5, interleaveHi s.h1 s.h5,
   interleaveLo s.h2 s.h6, interleaveHi s.h2 s.h6,
   interleaveLo s.h3 s.h7, interleaveHi s.h3 s.h7⟩

/-- `untranspose_states` from `simd/blake2s.rs`: three rounds of the
pairwise interleave permutation (rotating the 7-bit word index left by one
each round). -/
def untranspose_states (s : HSt Vec16) : HSt Vec16 :=
  untransposeStatesRound (untransposeStatesRound (untransposeStatesRound s))

/-- One round of `transpose_states` (from the test module of
`simd/blake2s.rs`): pairwise deinterleave of the 8 state vectors. -/
def transposeStatesRound (s : HSt Vec16) : HSt Vec16 :=
  ⟨deinterleaveLo s.h0 s.h1, deinterleaveLo s.h2 s.h3,
   deinterleaveLo s.h4 s.h5, deinterleaveLo s.h6 s.h7,
   deinterleaveHi s.h0 s.h1, deinterleaveHi s.h2 s.h3,
   deinterleaveHi s.h4 s.h5, deinterleaveHi s.h6 s.h7⟩

/-- `transpose_states` from the test module of `simd/blake2s.rs`: three
rounds of the pairwise deinterleave permutation. -/
def transpose_states (s : HSt Vec16) : HSt Vec16 :=
  transposeStatesRound (transposeStatesRound (transposeStatesRound s))

/-- One round of the message untranspose: pairwise interleave of the 16
vectors. Modelled from the spec: the inverse of a `transpose_msgs` round is
a round of pairwise "interleave". -/
def untransposeMsgsRound (d : Nat → Vec16) : Nat → Vec16 :=
  fun idx =>
    if idx % 2 = 0 then interleaveLo (d (idx / 2)) (d (idx / 2 + 8))
    else interleaveHi (d (idx / 2)) (d (idx / 2 + 8))

/-- The message untranspose: four rounds of pairwise interleave over 16
vectors. Modelled from the spec: "`untranspose_msgs ∘ transpose_msgs ==
identity` on all 16×16 word arrays". -/
def untranspose_msgs (d : Nat → Vec16) : Nat → Vec16 :=
  untransposeMsgsRound (untransposeMsgsRound (untransposeMsgsRound (untransposeMsgsRound d)))

/-! ### The scalar multi-block hasher.

Modelled from the spec: the byte-level hasher (`core/vcs/blake2_hash.rs`,
absent from the source tree) consumes the message in 64-byte blocks; per the
spec's counter semantics, a non-final block is compressed with `t` equal to
the bytes consumed including the current block, and the final (zero-padded)
block with `t` equal to the total message length and the finalization flag.
All messages hashed by the core are word-aligned, so the hasher is defined
on the little-endian 32-bit words of the message. -/

/-- Word `i` of a block given as a list of at most 16 words (missing words
are the zero padding). -/
def blockWord (b : List Nat) : Nat → Nat := fun i => b.getD i 0

/-- Scalar compression of one non-final block at byte count `t`
(64-bit counter split into low and high words). -/
def scompressUnfin (h : HSt Nat) (b : List Nat) (t : Nat) : HSt Nat :=
  scompress h (blockWord b) (t % U32M) (t / U32M % U32M) 0 0

/-- Scalar compression of the final block at byte count `t`. -/
def scompressFinal (h : HSt Nat) (b : List Nat) (t : Nat) : HSt Nat :=
  scompress h (blockWord b) (t % U32M) (t / U32M % U32M) 0xFFFFFFFF 0

/-- Splits a list into chunks of 16; every chunk except the last has exactly
16 elements, and the empty list yields one empty chunk (the all-zero padding
block of a BLAKE2s hash of the empty message). -/
def chunksOf16 {α : Type} (ws : List α) : List (List α) :=
  if _h : ws.length ≤ 16 then [ws]
  else ws.take 16 :: chunksOf16 (ws.drop 16)
termination_by ws.length
decreasing_by simp; omega

/-- Runs the scalar compressor over a list of blocks: every block but the
last is compressed unfinalized at `t = done-so-far + 64`; the last block is
compressed finalized at `t = total`. -/
def sblocks (h : HSt Nat) (bs : List (List Nat)) (done total : Nat) : HSt Nat :=
  match bs with
  | [] => h
  | [b] => scompressFinal h b total
  | b :: rest => sblocks (scompressUnfin h b (done + 64)) rest (done + 64) total

/-- The scalar BLAKE2s-256 hash of a word-aligned message given as its list
of little-endian 32-bit words. Modelled from the spec (see above). -/
def blakeWords (ws : List Nat) : HSt Nat :=
  sblocks sInitialState (chunksOf16 ws) 0 (4 * ws.length)

/-- The four little-endian bytes of a 32-bit word. -/
def leBytes4 (w : Nat) : List Nat :=
  [w % 256, w / 256 % 256, w / 65536 % 256, w / 16777216 % 256]

/-- The little-endian 32-bit words of a byte string (whose length is a
multiple of four). -/
def wordsOfBytes : List Nat → List Nat
  | b0 :: b1 :: b2 :: b3 :: rest =>
      (b0 + 256 * b1 + 65536 * b2 + 16777216 * b3) :: wordsOfBytes rest
  | _ => []

/-- The eight words of a hash state, in order. -/
def hWords (h : HSt Nat) : List Nat :=
  [h.h0, h.h1, h.h2, h.h3, h.h4, h.h5, h.h6, h.h7]

/-- The 32 bytes of a hash state (little-endian words in order). -/
def hashBytes (h : HSt Nat) : List Nat := (hWords h).flatMap leBytes4

/-- BLAKE2s-256 of a byte string whose length is a multiple of four.
Modelled from the spec (`blake2_hash.rs` absent from the source tree); the
spec's non-goals exclude messages whose byte length is not a multiple of
four. -/
def blake2sOfBytes (bs : List Nat) : HSt Nat := blakeWords (wordsOfBytes bs)

/-- Word `i` of an eight-word state (out-of-range indices give `z`). -/
def HSt.wd {α : Type} (s : HSt α) (z : α) (i : Nat) : α :=
  match i with
  | 0 => s.h0
  | 1 => s.h1
  | 2 => s.h2
  | 3 => s.h3
  | 4 => s.h4
  | 5 => s.h5
  | 6 => s.h6
  | 7 => s.h7
  | _ => z

/-! ### The Merkle commitment engine (`simd/blake2s.rs`, `blake2_merkle.rs`) -/

/-- The all-zero hash (`Blake2sHash::default()`). -/
def zeroHash : HSt Nat := ⟨0, 0, 0, 0, 0, 0, 0, 0⟩

/-- `Blake2sMerkleHasher::hash_node` from `blake2_merkle.rs`: BLAKE2s over
the two child hashes (when present) followed by the little-endian 4-byte
encoding of each column value.  Stated on words: a hash contributes its
eight words and each value contributes one word. -/
def hash_node (children : Option (HSt Nat × HSt Nat)) (values : List Nat) : HSt Nat :=
  blakeWords
    ((match children with
      | some (l, r) => hWords l ++ hWords r
      | none => []) ++ values)

/-- A base-field column of the SIMD backend (`BaseColumn`): the packed
16-lane chunks and the logical length. -/
structure BaseColumn where
  data : List Vec16
  length : Nat

/-- `BaseColumn::at(i)`: element `i % 16` of packed chunk `i / 16`. -/
def BaseColumn.atIdx (c : BaseColumn) (i : Nat) : Nat :=
  (c.data.getD (i / 16) (vsplat 0)) (i % 16)

/-- Word `flatIdx` of the 1024-byte slice `prev_layer[32 i .. 32 (i+1)]`
viewed as 256 `u32`s (`prev_chunk_u32s` in `commit_on_layer`). -/
def prevWord (prev : List (HSt Nat)) (i flatIdx : Nat) : Nat :=
  (prev.getD (32 * i + flatIdx / 8) zeroHash).wd 0 (flatIdx % 8)

/-- The 16 message vectors loaded from the previous-layer chunk `i`:
`msgs[j]` lane `k` holds `prev_chunk_u32s[16 j + k]`. -/
def prevMsgs (prev : List (HSt Nat)) (i : Nat) : Nat → Vec16 :=
  fun j => fun k => prevWord prev i (16 * j + k)

/-- The 16 message vectors of one group of at most 16 columns at row chunk
`i`: `msgs[j] = column_j.data[i]`, unused slots zeroed. -/
def colMsgs (chunk : List BaseColumn) (i : Nat) : Nat → Vec16 :=
  fun j =>
    match chunk[j]? with
    | some c => c.data.getD i (vsplat 0)
    | none => vsplat 0

/-- The column-hashing loop of `commit_on_layer`: every full group of 16
columns is compressed unfinalized with `t += 64`; the final group of
`C ≤ 16` columns is compressed finalized with `t += 4 C`. -/
def commitColChunks (st : HSt Vec16) (t : Nat) (chunks : List (List BaseColumn))
    (i : Nat) : HSt Vec16 :=
  match chunks with
  | [] => st
  | [last] => compress_finalize st (colMsgs last i) (t + 4 * last.length)
  | c :: rest => commitColChunks (compress_unfinalized st (colMsgs c i) (t + 64)) (t + 64) rest i

/-- Hash `r` of the 16 contiguous 32-byte hashes obtained by untransposing
the packed output states (`transmute` to `[Blake2sHash; 16]`): word `w` of
hash `r` is flat word `8 r + w` of the 8 untransposed vectors in
vector-major lane order. -/
def statesToHashes (s : HSt Vec16) (r : Nat) : HSt Nat :=
  let u := untranspose_states s
  let flat : Nat → Nat := fun idx => (u.wd (vsplat 0) (idx / 16)) (idx % 16)
  ⟨flat (8 * r), flat (8 * r + 1), flat (8 * r + 2), flat (8 * r + 3),
   flat (8 * r + 4), flat (8 * r + 5), flat (8 * r + 6), flat (8 * r + 7)⟩

/-- The body of `commit_on_layer` for one chunk `i` of 16 rows (the closure
of the packed path of `commit_on_layer` in `simd/blake2s.rs`), producing the
16 hashes of rows `16 i .. 16 i + 16`.  `none` models the abort of the
empty-columns branch when there is no previous layer: the message build
there reads `prev_chunk_u32s[16 j + k]` for flat indices up to 255 out of
the 16-element `[0; 16]` slice, an out-of-bounds panic. -/
def commitChunk (prev : Option (List (HSt Nat))) (columns : List BaseColumn)
    (i : Nat) : Option (List (HSt Nat)) :=
  if columns.isEmpty then
    match prev with
    | some p =>
      let st := compress_finalize INITIAL_STATE (transpose_msgs (prevMsgs p i)) 64
      some ((List.range 16).map (statesToHashes st))
    | none => none
  else
    let str : HSt Vec16 × Nat :=
      match prev with
      | some p => (compress_unfinalized INITIAL_STATE (transpose_msgs (prevMsgs p i)) 64, 64)
      | none => (INITIAL_STATE, 0)
    let st := commitColChunks str.1 str.2 (chunksOf16 columns) i
    some ((List.range 16).map (statesToHashes st))

/-- `commit_on_layer` from `simd/blake2s.rs`.  `none` models an abort (a
failed assertion or an out-of-range index): in the packed path the source
asserts `prev_layer.len() == 2^(log_size+1)`, indexes `column.data[i]` for
every chunk `i < 2^(log_size-4)`, and in the empty-columns branch with no
previous layer reads past the 16-element zero slice (the `none` of
`commitChunk`); in the scalar fallback path it indexes `prev_layer[2 i + 1]`
for `i < 2^log_size` and `column.data[i / 16]`. -/
def commit_on_layer (log_size : Nat) (prev : Option (List (HSt Nat)))
    (columns : List BaseColumn) : Option (List (HSt Nat)) :=
  if log_size < 4 then
    if (prev.all fun p => decide (2 ^ (log_size + 1) ≤ p.length)) &&
       (columns.all fun c => !c.data.isEmpty) then
      some ((List.range (2 ^ log_size)).map fun i =>
        hash_node (prev.map fun p => (p.getD (2 * i) zeroHash, p.getD (2 * i + 1) zeroHash))
          (columns.map fun c => c.atIdx i))
    else none
  else
    if (prev.all fun p => p.length == 2 ^ (log_size + 1)) &&
       (columns.all fun c => decide (2 ^ (log_size - 4) ≤ c.data.length)) then
      ((List.range (2 ^ (log_size - 4))).mapM (commitChunk prev columns)).map
        List.flatten
    else none

/-! ### The Fiat–Shamir channel (`channel/blake2s.rs`, `channel/mod.rs`) -/

/-- `ChannelTime` from `channel/mod.rs`. -/
structure ChannelTime where
  n_challenges : Nat
  n_sent : Nat

/-- `ChannelTime::inc_sent`. -/
def ChannelTime.inc_sent (ct : ChannelTime) : ChannelTime :=
  ⟨ct.n_challenges, ct.n_sent + 1⟩

/-- `ChannelTime::inc_challenges`. -/
def ChannelTime.inc_challenges (ct : ChannelTime) : ChannelTime :=
  ⟨ct.n_challenges + 1, 0⟩

/-- `Blake2sChannel` from `channel/blake2s.rs`: a digest and the two
counters. -/
structure Blake2sChannel where
  digest : HSt Nat
  channel_time : ChannelTime

/-- `Blake2sChannel::default()`: zero digest, zero counters. -/
def Blake2sChannel.default : Blake2sChannel := ⟨zeroHash, 0, 0⟩

/-- `Blake2sChannel::update_digest`. -/
def Blake2sChannel.update_digest (c : Blake2sChannel) (d : HSt Nat) : Blake2sChannel :=
  ⟨d, c.channel_time.inc_challenges⟩

/-- The 32-byte counter block of `draw_random_bytes`: `n_sent` as eight
little-endian bytes followed by 24 zero bytes. -/
def counterBlockBytes (n : Nat) : List Nat :=
  leBytes4 (n % U32M) ++ leBytes4 (n / U32M % U32M) ++ List.replicate 24 0

/-- `Blake2sChannel::draw_random_bytes`: hashes the digest followed by the
padded counter, increments `n_sent`, and returns the 32 hash bytes. -/
def Blake2sChannel.draw_random_bytes (c : Blake2sChannel) : List Nat × Blake2sChannel :=
  (hashBytes (blake2sOfBytes (hashBytes c.digest ++ counterBlockBytes c.channel_time.n_sent)),
   ⟨c.digest, c.channel_time.inc_sent⟩)

/-- `Blake2sChannel::mix_u32s`: replaces the digest with BLAKE2s of the
digest followed by the little-endian bytes of each word. -/
def Blake2sChannel.mix_u32s (c : Blake2sChannel) (data : List Nat) : Blake2sChannel :=
  c.update_digest (blake2sOfBytes (hashBytes c.digest ++ data.flatMap leBytes4))

/-- `Blake2sChannel::mix_u64`: mixes `[value as u32, (value >> 32) as u32]`. -/
def Blake2sChannel.mix_u64 (c : Blake2sChannel) (value : Nat) : Blake2sChannel :=
  c.mix_u32s [value % U32M, value / U32M % U32M]

/-- The Mersenne prime `p = 2^31 - 1` (`P` in `fields/m31.rs`). -/
def P31 : Nat := 2147483647

/-- `Blake2sChannel::draw_base_felts` with an explicit bound (`fuel`) on the
number of rejection-sampling attempts: reads the 32 drawn bytes as eight
little-endian words; if all are below `2 P` each is reduced to `[0, P)`,
otherwise the draw is retried with the incremented counter. -/
def Blake2sChannel.draw_base_felts :
    Nat → Blake2sChannel → Option (List Nat × Blake2sChannel)
  | 0, _ => none
  | fuel + 1, c =>
    let bc := c.draw_random_bytes
    let u32s := wordsOfBytes bc.1
    if u32s.all fun x => decide (x < 2 * P31) then
      some (u32s.map fun x => x % P31, bc.2)
    else
      Blake2sChannel.draw_base_felts fuel bc.2

/-- `Blake2sChannel::draw_felt`: one base draw, keeping the first four base
elements as the secure element's coordinates. -/
def Blake2sChannel.draw_felt (fuel : Nat) (c : Blake2sChannel) :
    Option (List Nat × Blake2sChannel) :=
  (Blake2sChannel.draw_base_felts fuel c).map fun fc => (fc.1.take 4, fc.2)

/-- `Blake2sChannel::draw_felts`: each base draw of eight elements yields
two secure elements (four coordinates each); only as many draws are taken
as needed for `n` secure elements, and an odd request discards the second
half of the last draw. -/
def Blake2sChannel.draw_felts (fuel : Nat) :
    Nat → Blake2sChannel → Option (List (List Nat) × Blake2sChannel)
  | 0, c => some ([], c)
  | 1, c => (Blake2sChannel.draw_base_felts fuel c).map fun fc => ([fc.1.take 4], fc.2)
  | n + 2, c =>
    (Blake2sChannel.draw_base_felts fuel c).bind fun fc =>
      (Blake2sChannel.draw_felts fuel n fc.2).map fun rc =>
        (fc.1.take 4 :: (fc.1.drop 4).take 4 :: rc.1, rc.2)

/-- A column whose logical length (32) disagrees with a target layer size of
`2^4 = 16` rows; its packed data covers both chunks. -/
def lengthMismatchColumn : BaseColumn := ⟨[vsplat 0, vsplat 0], 32⟩

/-! ### The proof-of-work grinder (`simd/grind.rs`) -/

/-- `u32::trailing_zeros` with an explicit probe bound (32 probes, so the
zero word yields 32). -/
def tzAux : Nat → Nat → Nat
  | 0, _ => 0
  | fuel + 1, x => if x % 2 = 1 then 0 else 1 + tzAux fuel (x / 2)

/-- `u32::trailing_zeros`. -/
def tz32 (x : Nat) : Nat := tzAux 32 x

/-- The position of the first true lane
(`success_mask.to_array().iter().position(|&x| x)`). -/
def firstTrueLane (mask : Nat → Bool) : Nat → Nat → Option Nat
  | 0, _ => none
  | rem + 1, j => if mask j then some j else firstTrueLane mask rem (j + 1)

/-- The candidate message vectors of `grind_blake`: the eight digest words
in words 0..7, the packed low nonce words at 8 (lane `j` holding
`attemptLowBase + j`, wrapping), the high nonce word at 9, zeros in
words 10..15. -/
def grindMsgs (digest : HSt Nat) (attemptLowBase attemptHigh : Nat) : Nat → Vec16 :=
  fun idx => fun j =>
    if idx ≤ 7 then digest.wd 0 idx
    else if idx = 8 then (attemptLowBase + j) % U32M
    else if idx = 9 then attemptHigh
    else 0

/-- The scalar candidate block for nonce `n`: the digest words, then the
little-endian low and high 32-bit words of `n`, then zeros. -/
def grindScalarMsg (digest : HSt Nat) (n : Nat) : Nat → Nat :=
  fun idx =>
    if idx ≤ 7 then digest.wd 0 idx
    else if idx = 8 then n % U32M
    else if idx = 9 then n / U32M
    else 0

/-- The success predicate of the grinder on nonce `n`: the BLAKE2s
compression of the single 64-byte digest-and-nonce block, with byte counter
`t = 40` and finalization, has at least `pow_bits` trailing zero bits in its
first 32-bit state word. -/
abbrev grindPred (digest : HSt Nat) (pow_bits n : Nat) : Prop :=
  pow_bits ≤ tz32 ((scompress sInitialState (grindScalarMsg digest n) 40 0 0xFFFFFFFF 0).h0)

/-- The sweep loop of `grind_blake`: `count` sweeps remain, the next
covering low nonces `low .. low + 16` of bucket `hi`. -/
def grindSweeps (digest : HSt Nat) (hi pow_bits : Nat) : Nat → Nat → Option Nat
  | 0, _ => none
  | count + 1, low =>
    let attemptLowBase := hi * 2 ^ 20 % U32M + low
    let attemptHigh := hi / 2 ^ 12 % U32M
    let res := hash_16 (grindMsgs digest attemptLowBase attemptHigh) 40
    match firstTrueLane (fun j => decide (pow_bits ≤ tz32 (res.h0 j))) 16 0 with
    | some j => some (hi * 2 ^ 20 % 2 ^ 64 + low + j)
    | none => grindSweeps digest hi pow_bits count (low + 16)

/-- `grind_blake` from `simd/grind.rs`: sweeps the `2^20` low nonces of
bucket `hi` in steps of 16 lanes (`2^16` sweeps). -/
def grind_blake (digest : HSt Nat) (hi pow_bits : Nat) : Option Nat :=
  grindSweeps digest hi pow_bits (2 ^ 16) 0

/-- The bucket loop of `grind`: `count` buckets remain starting at `hi`
(the source iterates `hi` over `0 ..= 2^44`, inclusive). -/
def grindOuter (digest : HSt Nat) (pow_bits : Nat) : Nat → Nat → Option Nat
  | 0, _ => none
  | count + 1, hi =>
    match grind_blake digest hi pow_bits with
    | some n => some n
    | none => grindOuter digest pow_bits count (hi + 1)

/-- `grind` from `simd/grind.rs`; `none` models the assert on
`pow_bits > 32` and the `expect` on an exhausted nonce space. -/
def grind (digest : HSt Nat) (pow_bits : Nat) : Option Nat :=
  if pow_bits ≤ 32 then grindOuter digest pow_bits (2 ^ 44 + 1) 0 else none

/-! ### The circle-domain bit-reversed iterator (`simd/domain.rs`) -/

/-- A point of the circle curve over the Mersenne field
(`CirclePoint<M31>`). Modelled from the spec: `circle.rs` and
`fields/m31.rs` are absent from the source tree; the curve's group law is
(x1, y1) + (x2, y2) = (x1 x2 − y1 y2, x1 y2 + y1 x2) with identity (1, 0)
and negation (conjugation) (x, −y), over arithmetic mod `p = 2^31 − 1`. -/
@[ext]
structure CirclePoint where
  x : ZMod 2147483647
  y : ZMod 2147483647

/-- The circle group law. -/
def CirclePoint.add (p q : CirclePoint) : CirclePoint :=
  ⟨p.x * q.x - p.y * q.y, p.x * q.y + p.y * q.x⟩

/-- The identity point `(1, 0)` (`CirclePoint::zero`). -/
def CirclePoint.zero : CirclePoint := ⟨1, 0⟩

/-- Negation is conjugation `(x, −y)`. -/
def CirclePoint.neg (p : CirclePoint) : CirclePoint := ⟨p.x, -p.y⟩

/-- `n`-fold sum (`CirclePoint::mul`). -/
def CirclePoint.mul (p : CirclePoint) : Nat → CirclePoint
  | 0 => CirclePoint.zero
  | n + 1 => (CirclePoint.mul p n).add p

/-- Membership in the unit circle `x^2 + y^2 = 1`. -/
def CirclePoint.onCircle (p : CirclePoint) : Prop := p.x ^ 2 + p.y ^ 2 = 1

/-- `bit_reverse_index i n`, the `n`-bit reversal of `i`.
Modelled from the spec (`utils.rs` absent): the permutation sending an index
to the integer with the reversed binary representation. -/
def bitrev : Nat → Nat → Nat
  | 0, _ => 0
  | n + 1, i => i % 2 * 2 ^ n + bitrev n (i / 2)

/-- `usize::trailing_ones`, with 64 probes. -/
def tOnesAux : Nat → Nat → Nat
  | 0, _ => 0
  | fuel + 1, i => if i % 2 = 1 then 1 + tOnesAux fuel (i / 2) else 0

/-- `usize::trailing_ones`. -/
def trailingOnes (i : Nat) : Nat := tOnesAux 64 i

/-- `CircleDomain::at` for the domain of log size `k` with half-coset
initial point `c` and step `s`: the half coset `c + i • s` below
`2^(k-1)`, its conjugates above. Modelled from the spec: the domain is the
half coset together with its conjugates, and "consecutive bit-reversed
points differ in the high-order bit that maps to conjugation". -/
def domainAt (c s : CirclePoint) (k i : Nat) : CirclePoint :=
  if i < 2 ^ (k - 1) then (CirclePoint.mul s i).add c
  else ((CirclePoint.mul s (i - 2 ^ (k - 1))).add c).neg

/-- The flip table read `flips[e]` of `next`: the table has 27 entries
(`M31_CIRCLE_LOG_ORDER − LOG_N_LANES`), so a read at level `e ≥ 27` is out
of bounds and panics (`none`); levels `e < k − 4` hold the constructed
delta `step · bitrev(2^e, k−4) − step · bitrev(2^e − 1, k−4)` and the rest
keep the array's zero initializer. -/
def iterFlips (s : CirclePoint) (k e : Nat) : Option CirclePoint :=
  if 27 ≤ e then none
  else if e < k - 4 then
    some ((CirclePoint.mul s (bitrev (k - 4) (2 ^ e))).add
      ((CirclePoint.mul s (bitrev (k - 4) (2 ^ e - 1))).neg))
  else some CirclePoint.zero

/-- `CircleDomainBitRevIterator` from `simd/domain.rs`: the domain
parameters, the batch cursor and the current batch of 16 lanes (the flip
table is the function `iterFlips` of the domain parameters). -/
structure CircleDomainBitRevIterator where
  c : CirclePoint
  s : CirclePoint
  k : Nat
  i : Nat
  current : Nat → CirclePoint

/-- `CircleDomainBitRevIterator::new`; `none` models the assert
`log_size >= LOG_N_LANES` and the out-of-range write into the 27-entry flip
array (`M31_CIRCLE_LOG_ORDER − LOG_N_LANES`) for `log_size − 4 > 27`. -/
def iterNew (c s : CirclePoint) (k : Nat) : Option CircleDomainBitRevIterator :=
  if k < 4 then none
  else if 27 < k - 4 then none
  else some ⟨c, s, k, 0, fun j => domainAt c s k (bitrev k j)⟩

/-- The advance step of `next`: add `flips[trailing_ones i]` to the batch,
its `y` coordinate negated on odd lanes, and increment the cursor; `none`
propagates the panic of the out-of-bounds flip read. -/
def iterAdvance (it : CircleDomainBitRevIterator) :
    Option CircleDomainBitRevIterator :=
  (iterFlips it.s it.k (trailingOnes it.i)).map fun f =>
    ⟨it.c, it.s, it.k, it.i + 1, fun j =>
      (it.current j).add (if j % 2 = 0 then f else f.neg)⟩

/-- `Iterator::next`: `some none` is the end-of-sequence marker once
`16 i ≥ 2^k`, `some (some (batch, it))` emits the current batch with the
advanced iterator, and the outer `none` is the abort when the advance
performed before returning reads past the flip table. -/
def iterNext (it : CircleDomainBitRevIterator) :
    Option (Option ((Nat → CirclePoint) × CircleDomainBitRevIterator)) :=
  if 2 ^ it.k ≤ it.i * 16 then some none
  else (iterAdvance it).map fun it2 => some (it.current, it2)

/-- The iterator state after `n` advances; `none` once an advance aborts. -/
def iterSteps (it : CircleDomainBitRevIterator) :
    Nat → Option CircleDomainBitRevIterator
  | 0 => some it
  | n + 1 => (iterSteps it n).bind iterAdvance

/-! ## Theorems -/

/-- Wrapping addition commutes. -/
theorem add32_comm (a b : Nat) : add32 a b = add32 b a := by
  simp [add32, Nat.add_comm]

/-- Wrapping addition is associative. -/
theorem add32_assoc (a b c : Nat) : add32 (add32 a b) c = add32 a (add32 b c) := by
  simp only [add32, Nat.mod_add_mod, Nat.add_mod_mod, Nat.add_assoc]

/-- Wrapping addition left-commutes. -/
theorem add32_left_comm (a b c : Nat) : add32 a (add32 b c) = add32 b (add32 a c) := by
  rw [← add32_assoc, add32_comm a b, add32_assoc]

/-- Lane projection of a lane-wise addition. -/
theorem vadd_lane (a b : Vec16) (j : Nat) : vadd a b j = add32 (a j) (b j) := rfl

/-- Lane projection of a lane-wise xor. -/
theorem vxor_lane (a b : Vec16) (j : Nat) : vxor a b j = xor32 (a j) (b j) := rfl

/-- Lane projection of a lane-wise rotation. -/
theorem vrot_lane (n : Nat) (a : Vec16) (j : Nat) : vrot n a j = rotr n (a j) := rfl

/-- The two operand orders of the G function agree. -/
theorem gfun_eq_gfunStd (a b c d x y : Nat) :
    gfun a b c d x y = gfunStd a b c d x y := by
  simp only [gfun, gfunStd]
  rw [add32_assoc a x b, add32_comm x b, ← add32_assoc a b x,
    add32_assoc _ y _, add32_comm y, ← add32_assoc]

/-- The unrolled scalar round is the composition of eight G-functions
(columns then diagonals) over the message schedule, as the spec states. -/
theorem sround_eq_sroundG (v : BlkSt Nat) (m : Nat → Nat) (r : Nat) :
    sround v m r = sroundG v m r := rfl

/-- Each lane of the sixteen-lane round equals the scalar round on that lane. -/
theorem vroundFn_lane (v : BlkSt Vec16) (m : Nat → Vec16) (r : Nat) (j : Nat) :
    (vroundFn v m r).lane j = sround (v.lane j) (msgLane m j) r := rfl

/-- C3: each lane of `compress16` equals the scalar BLAKE2s compression of
the inputs projected to that lane. -/
theorem compress16_lane (h : HSt Vec16) (m : Nat → Vec16)
    (cl ch lb ln : Vec16) (j : Nat) :
    (compress16 h m cl ch lb ln).lane j =
      scompress (h.lane j) (msgLane m j) (cl j) (ch j) (lb j) (ln j) := rfl

/-- `transpose_msgs` is the 16×16 word transpose: vector `k`, lane `j` of
the output is word `k` of message `j`. -/
theorem transpose_msgs_spec (d : Nat → Vec16) (k j : Nat) (hk : k < 16) (hj : j < 16) :
    transpose_msgs d k j = d j k := by
  interval_cases k <;> interval_cases j <;> rfl

/-- `untranspose_states` realizes the inverse rotation of the 7-bit word
index: vector `v`, lane `l` of the output is lane `2 v + l / 8` of input
vector `l % 8`. -/
theorem untranspose_states_spec (s : HSt Vec16) (v l : Nat) (hv : v < 8) (hl : l < 16) :
    (untranspose_states s).wd (vsplat 0) v l = (s.wd (vsplat 0) (l % 8)) (2 * v + l / 8) := by
  interval_cases v <;> interval_cases l <;> rfl

/-- The message untranspose undoes the message transpose on every word of a
16×16 array. -/
theorem untranspose_transpose_msgs (d : Nat → Vec16) (k j : Nat) (hk : k < 16) (hj : j < 16) :
    untranspose_msgs (transpose_msgs d) k j = d k j := by
  interval_cases k <;> interval_cases j <;> rfl

/-- The three-round state untranspose undoes the three-round state
transpose on every word of an 8×16 array. -/
theorem untranspose_transpose_states (s : HSt Vec16) (v l : Nat) (hv : v < 8) (hl : l < 16) :
    (untranspose_states (transpose_states s)).wd (vsplat 0) v l = (s.wd (vsplat 0) v) l := by
  interval_cases v <;> interval_cases l <;> rfl

/-- C6: the bytes returned by a draw are BLAKE2s of the digest followed by
the counter block; there are exactly 32 of them; the digest is unchanged
and `n_sent` increments (with `n_challenges` untouched). -/
theorem draw_random_bytes_spec (c : Blake2sChannel) :
    c.draw_random_bytes.1 =
      hashBytes (blake2sOfBytes (hashBytes c.digest ++ counterBlockBytes c.channel_time.n_sent)) ∧
    c.draw_random_bytes.1.length = 32 ∧
    c.draw_random_bytes.2.digest = c.digest ∧
    c.draw_random_bytes.2.channel_time.n_sent = c.channel_time.n_sent + 1 ∧
    c.draw_random_bytes.2.channel_time.n_challenges = c.channel_time.n_challenges := by
  refine ⟨rfl, ?_, rfl, rfl, rfl⟩
  simp [Blake2sChannel.draw_random_bytes, hashBytes, hWords, leBytes4]

/-- C9: `mix_u64 v` leaves the channel in the same state as
`mix_u32s [v & 0xFFFFFFFF, v >> 32]`, low word first. -/
theorem mix_u64_eq_mix_u32s (c : Blake2sChannel) (v : Nat) (hv : v < 2 ^ 64) :
    c.mix_u64 v = c.mix_u32s [Nat.land v 0xFFFFFFFF, v >>> 32] := by
  have h1 : Nat.land v 0xFFFFFFFF = v % U32M := by
    have h := Nat.and_pow_two_sub_one_eq_mod v 32
    norm_num at h
    simpa [U32M] using h
  have h2 : v >>> 32 = v / U32M := by
    simp [Nat.shiftRight_eq_div_pow, U32M]
  have h3 : v / U32M % U32M = v / U32M := by
    have hv2 : v < 4294967296 * 4294967296 := by norm_num at hv ⊢; omega
    have : v / U32M < U32M := by
      simp only [U32M]
      omega
    exact Nat.mod_eq_of_lt this
  simp only [Blake2sChannel.mix_u64, h1, h2, h3]

/-- A tiny instance of `mix_u64_eq_mix_u32s` at `v = 5` on the default
channel. -/
theorem mix_u64_eq_mix_u32s_witness :
    Blake2sChannel.default.mix_u64 5 =
      Blake2sChannel.default.mix_u32s [Nat.land 5 0xFFFFFFFF, 5 >>> 32] :=
  mix_u64_eq_mix_u32s Blake2sChannel.default 5 (by norm_num)

/-- C10: `draw_felts 1` draws the same single secure element as `draw_felt`
and leaves the channel in the identical final state. -/
theorem draw_felts_one_eq_draw_felt (fuel : Nat) (c : Blake2sChannel) :
    Blake2sChannel.draw_felts fuel 1 c =
      (Blake2sChannel.draw_felt fuel c).map fun fc => ([fc.1], fc.2) := by
  cases h : Blake2sChannel.draw_base_felts fuel c <;>
    simp [Blake2sChannel.draw_felts, Blake2sChannel.draw_felt, h]

/-- C8 counterexample: a column of the wrong length (32 instead of
`2^4 = 16`) is accepted by the packed `commit_on_layer` without any assert
firing: a layer is returned. -/
theorem commit_on_layer_accepts_wrong_length_column :
    (commit_on_layer 4 none [lengthMismatchColumn]).isSome = true := rfl

/-- C8 (amended): in the packed path (`log_size ≥ 4`), a present previous
layer whose length differs from `2^(log_size+1)` fails the assert and no
layer is returned; column lengths, by contrast, are not checked. -/
theorem commit_on_layer_prev_assert (k : Nat) (prev : List (HSt Nat))
    (cols : List BaseColumn) (hk : 4 ≤ k) (hlen : prev.length ≠ 2 ^ (k + 1)) :
    commit_on_layer k (some prev) cols = none := by
  simp only [commit_on_layer]
  rw [if_neg (by omega)]
  have hall : ((some prev).all fun p => p.length == 2 ^ (k + 1)) = false := by
    simp [Option.all, hlen]
  rw [hall]
  simp

/-- The previous-layer assert fires on a concrete mismatched input. -/
theorem commit_on_layer_prev_assert_witness :
    commit_on_layer 4 (some []) [] = none :=
  commit_on_layer_prev_assert 4 [] [] (by norm_num) (by norm_num)

/-- Every message-schedule index is below 16. -/
theorem sig_lt (r i : Nat) : sig r i < 16 := by
  have hrow : ∀ x ∈ SIGMA, ∀ y ∈ x, y < 16 := by decide
  unfold sig
  rcases Nat.lt_or_ge r SIGMA.length with h | h
  · have hmem : SIGMA.getD r [] ∈ SIGMA := by
      rw [List.getD_eq_getElem?_getD, List.getElem?_eq_getElem h, Option.getD_some]
      exact List.getElem_mem h
    rcases Nat.lt_or_ge i (SIGMA.getD r []).length with h2 | h2
    · rw [List.getD_eq_getElem?_getD (SIGMA.getD r []), List.getElem?_eq_getElem h2,
        Option.getD_some]
      exact hrow _ hmem _ (List.getElem_mem h2)
    · rw [List.getD_eq_default _ _ h2]; norm_num
  · rw [List.getD_eq_default _ _ h]
    norm_num

/-- The scalar round only reads message words below index 16. -/
theorem sround_congr (m m2 : Nat → Nat) (hm : ∀ w, w < 16 → m w = m2 w)
    (v : BlkSt Nat) (r : Nat) : sround v m r = sround v m2 r := by
  have hsig : ∀ a b : Nat, m (sig a b) = m2 (sig a b) := fun a b => hm _ (sig_lt a b)
  simp only [sround, hsig]

/-- The scalar compression only reads message words below index 16. -/
theorem scompress_congr (h : HSt Nat) (m m2 : Nat → Nat)
    (hm : ∀ w, w < 16 → m w = m2 w) (cl ch lb ln : Nat) :
    scompress h m cl ch lb ln = scompress h m2 cl ch lb ln := by
  have hs : ∀ v r, sround v m r = sround v m2 r := fun v r => sround_congr m m2 hm v r
  simp only [scompress, hs]

/-- Lane projection of `compress_unfinalized`. -/
theorem compress_unfinalized_lane (st : HSt Vec16) (chunk : Nat → Vec16) (t : Nat) (j : Nat) :
    (compress_unfinalized st chunk t).lane j =
      scompress (st.lane j) (msgLane chunk j) (t % U32M) 0 0 0 := rfl

/-- Lane projection of `compress_finalize`. -/
theorem compress_finalize_lane (st : HSt Vec16) (blk : Nat → Vec16) (t : Nat) (j : Nat) :
    (compress_finalize st blk t).lane j =
      scompress (st.lane j) (msgLane blk j) (t % U32M) 0 0xFFFFFFFF 0 := rfl

/-- The first word of the leaf initial state is `IV[0] ^ 0x01010020`. -/
theorem initial_word0_eq : IV0P = Nat.xor (iv 0) 0x01010020 := by decide

/-- Each lane of the packed initial state is the scalar initial state. -/
theorem INITIAL_STATE_lane (j : Nat) : INITIAL_STATE.lane j = sInitialState := rfl

/-- Hash `r` extracted from the untransposed states is exactly lane `r` of
the packed state. -/
theorem statesToHashes_lane (s : HSt Vec16) (r : Nat) (hr : r < 16) :
    statesToHashes s r = s.lane r := by
  interval_cases r <;> rfl

/-- Word access into the word list of a hash. -/
theorem hWords_getD (h : HSt Nat) (w : Nat) (hw : w < 8) :
    (hWords h).getD w 0 = h.wd 0 w := by
  interval_cases w <;> rfl

/-- `chunksOf16` never returns an empty list of chunks. -/
theorem chunksOf16_ne_nil {α : Type} (ws : List α) : chunksOf16 ws ≠ [] := by
  rw [chunksOf16]
  split <;> simp

/-- `chunksOf16` on a short list. -/
theorem chunksOf16_single {α : Type} (ws : List α) (h : ws.length ≤ 16) :
    chunksOf16 ws = [ws] := by
  rw [chunksOf16, dif_pos h]

/-- `chunksOf16` on a long list. -/
theorem chunksOf16_cons {α : Type} (ws : List α) (h : ¬ ws.length ≤ 16) :
    chunksOf16 ws = ws.take 16 :: chunksOf16 (ws.drop 16) := by
  rw [chunksOf16]
  exact dif_neg h

/-- Concatenating the chunks recovers the list. -/
theorem chunksOf16_flatten {α : Type} (ws : List α) : (chunksOf16 ws).flatten = ws := by
  by_cases h : ws.length ≤ 16
  · rw [chunksOf16_single ws h]; simp
  · rw [chunksOf16_cons ws h]
    simp only [List.flatten_cons, chunksOf16_flatten (ws.drop 16)]
    exact List.take_append_drop 16 ws
termination_by ws.length
decreasing_by simp; omega

/-- Chunking commutes with mapping. -/
theorem chunksOf16_map {α β : Type} (f : α → β) (ws : List α) :
    chunksOf16 (ws.map f) = (chunksOf16 ws).map (List.map f) := by
  by_cases h : ws.length ≤ 16
  · rw [chunksOf16_single ws h, chunksOf16_single _ (by simpa using h)]
    simp
  · rw [chunksOf16_cons ws h, chunksOf16_cons _ (by simpa using h)]
    simp only [List.map_cons]
    rw [← List.map_take, ← List.map_drop, chunksOf16_map f (ws.drop 16)]
termination_by ws.length
decreasing_by simp; omega

/-- Every chunk except the last has exactly 16 elements. -/
theorem chunksOf16_dropLast {α : Type} (ws : List α) :
    ∀ ch ∈ (chunksOf16 ws).dropLast, ch.length = 16 := by
  by_cases h : ws.length ≤ 16
  · rw [chunksOf16_single ws h]; simp
  · rw [chunksOf16_cons ws h]
    intro ch hch
    rw [List.dropLast_cons_of_ne_nil (chunksOf16_ne_nil _)] at hch
    rcases List.mem_cons.mp hch with h1 | h1
    · subst h1; simp; omega
    · exact chunksOf16_dropLast (ws.drop 16) ch h1
termination_by ws.length
decreasing_by simp; omega

/-- Chunking a 16-element prefix followed by a nonempty tail peels off the
prefix as the first block. -/
theorem chunksOf16_append16 {α : Type} (l vs : List α) (hl : l.length = 16)
    (hvs : vs ≠ []) : chunksOf16 (l ++ vs) = l :: chunksOf16 vs := by
  have hpos : 0 < vs.length := List.length_pos.mpr hvs
  have hlen : ¬ (l ++ vs).length ≤ 16 := by
    simp only [List.length_append, hl]
    omega
  rw [chunksOf16_cons _ hlen, List.take_left' hl, List.drop_left' hl]

/-- Every chunk has at most 16 elements. -/
theorem chunksOf16_le {α : Type} (ws : List α) :
    ∀ ch ∈ chunksOf16 ws, ch.length ≤ 16 := by
  by_cases h : ws.length ≤ 16
  · rw [chunksOf16_single ws h]
    intro ch hch
    simp at hch
    subst hch; exact h
  · rw [chunksOf16_cons ws h]
    intro ch hch
    rcases List.mem_cons.mp hch with h1 | h1
    · subst h1; simp
    · exact chunksOf16_le (ws.drop 16) ch h1
termination_by ws.length
decreasing_by simp; omega

/-- Lane `r` of the column-group message vectors is the word list of the
row's column values, zero-padded. -/
theorem colMsgs_lane (ch : List BaseColumn) (q r w : Nat) (hr : r < 16) :
    colMsgs ch q w r = (ch.map fun c => c.atIdx (16 * q + r)).getD w 0 := by
  unfold colMsgs
  rcases Nat.lt_or_ge w ch.length with hw | hw
  · rw [List.getElem?_eq_getElem hw]
    rw [List.getD_eq_getElem?_getD, List.getElem?_map, List.getElem?_eq_getElem hw]
    simp only [Option.map_some', Option.getD_some]
    unfold BaseColumn.atIdx
    have e1 : (16 * q + r) / 16 = q := by omega
    have e2 : (16 * q + r) % 16 = r := by omega
    rw [e1, e2]
  · rw [List.getElem?_eq_none (by omega), List.getD_eq_default _ _ (by simpa using hw)]
    rfl

/-- Lane `r` of the transposed previous-layer message vectors is the word
list of the two child hashes of row `16 q + r`. -/
theorem prevMsgs_lane (p : List (HSt Nat)) (q r w : Nat) (hr : r < 16) (hw : w < 16) :
    transpose_msgs (prevMsgs p q) w r =
      (hWords (p.getD (32 * q + 2 * r) zeroHash) ++
        hWords (p.getD (32 * q + 2 * r + 1) zeroHash)).getD w 0 := by
  rw [transpose_msgs_spec _ _ _ hw hr]
  unfold prevMsgs prevWord
  have hlen : ∀ x : HSt Nat, (hWords x).length = 8 := fun _ => rfl
  rcases Nat.lt_or_ge w 8 with h8 | h8
  · have e1 : (16 * r + w) / 8 = 2 * r := by omega
    have e2 : (16 * r + w) % 8 = w := by omega
    rw [e1, e2, List.getD_append _ _ _ _ (by rw [hlen]; omega)]
    exact (hWords_getD _ _ h8).symm
  · have e1 : (16 * r + w) / 8 = 2 * r + 1 := by omega
    have e2 : (16 * r + w) % 8 = w - 8 := by omega
    rw [e1, e2, List.getD_append_right _ _ _ _ (by rw [hlen]; omega), hlen]
    exact (hWords_getD _ _ (by omega)).symm

/-- Lane `r` of the column-hashing loop is the scalar block chain over the
row's column values, grouped by chunks. -/
theorem commitColChunks_lane (chunks : List (List BaseColumn)) (st : HSt Vec16)
    (t q r : Nat) (hr : r < 16)
    (hgood : ∀ ch ∈ chunks.dropLast, ch.length = 16)
    (hall : ∀ ch ∈ chunks, ch.length ≤ 16)
    (hne : chunks ≠ [])
    (ht : t + 64 * chunks.length < U32M) :
    (commitColChunks st t chunks q).lane r =
      sblocks (st.lane r) (chunks.map fun ch => ch.map fun c => c.atIdx (16 * q + r)) t
        (t + 4 * (chunks.map List.length).sum) := by
  induction chunks generalizing st t with
  | nil => exact absurd rfl hne
  | cons c rest ih =>
    cases rest with
    | nil =>
      simp only [commitColChunks, List.map_cons, List.map_nil, sblocks, List.sum_cons,
        List.sum_nil]
      rw [compress_finalize_lane]
      have hc16 : c.length ≤ 16 := hall c (by simp)
      have hT : t + 4 * c.length < U32M := by
        simp only [List.length_cons, List.length_nil] at ht
        omega
      unfold scompressFinal
      have hmod : (t + 4 * c.length) % U32M = t + 4 * c.length := Nat.mod_eq_of_lt hT
      have hdiv : (t + 4 * c.length) / U32M % U32M = 0 := by
        rw [Nat.div_eq_of_lt hT]
        exact Nat.zero_mod _
      rw [show c.length + 0 = c.length from rfl, hmod, hdiv]
      exact scompress_congr _ _ _ (fun w hw => colMsgs_lane c q r w hr) _ _ _ _
    | cons c2 rest2 =>
      simp only [commitColChunks]
      have hc16 : c.length = 16 := by
        apply hgood
        rw [List.dropLast_cons_of_ne_nil (by simp)]
        simp
      have hbound : t + 64 < U32M := by
        simp only [List.length_cons] at ht
        omega
      rw [ih (compress_unfinalized st (colMsgs c q) (t + 64)) (t + 64)
        (fun ch hch => hgood ch (by rw [List.dropLast_cons_of_ne_nil (by simp)]; simp [hch]))
        (fun ch hch => hall ch (by simp [hch]))
        (by simp)
        (by simp only [List.length_cons] at ht ⊢; omega)]
      rw [compress_unfinalized_lane]
      have hrw : scompress (st.lane r) (msgLane (colMsgs c q) r) ((t + 64) % U32M) 0 0 0 =
          scompressUnfin (st.lane r) (c.map fun cc => cc.atIdx (16 * q + r)) (t + 64) := by
        unfold scompressUnfin
        rw [Nat.mod_eq_of_lt hbound, Nat.div_eq_of_lt hbound]
        exact scompress_congr _ _ _ (fun w hw => colMsgs_lane c q r w hr) _ _ _ _
      rw [hrw]
      have htot : t + 64 + 4 * ((c2 :: rest2).map List.length).sum =
          t + 4 * ((c :: c2 :: rest2).map List.length).sum := by
        simp only [List.map_cons, List.sum_cons, hc16]
        ring
      rw [htot]
      rfl

/-- The number of chunks is at most `length / 16 + 1`. -/
theorem chunksOf16_length_le {α : Type} (ws : List α) :
    (chunksOf16 ws).length ≤ ws.length / 16 + 1 := by
  by_cases h : ws.length ≤ 16
  · rw [chunksOf16_single ws h]; simp
  · rw [chunksOf16_cons ws h]
    have hrec := chunksOf16_length_le (ws.drop 16)
    simp only [List.length_cons, List.length_drop] at hrec ⊢
    omega
termination_by ws.length
decreasing_by simp; omega


/-- Unfolding `sblocks` on a head block followed by a nonempty tail. -/
theorem sblocks_cons_of_ne (h : HSt Nat) (b : List Nat) (rest : List (List Nat))
    (done total : Nat) (hne : rest ≠ []) :
    sblocks h (b :: rest) done total =
      sblocks (scompressUnfin h b (done + 64)) rest (done + 64) total := by
  obtain ⟨hd, tl, rfl⟩ := List.exists_cons_of_ne_nil hne
  rfl

/-- A lane-message agreeing with a block below index 16 gives the same
unfinalized compression (for byte counts below `2^32`). -/
theorem scompressUnfin_small (h : HSt Nat) (b : List Nat) (t : Nat) (ht : t < U32M)
    (M : Nat → Nat) (hm : ∀ w, w < 16 → M w = blockWord b w) :
    scompress h M (t % U32M) 0 0 0 = scompressUnfin h b t := by
  unfold scompressUnfin
  rw [Nat.mod_eq_of_lt ht, Nat.div_eq_of_lt ht, Nat.zero_mod]
  exact scompress_congr h M (blockWord b) hm t 0 0 0

/-- A lane-message agreeing with a block below index 16 gives the same
finalized compression (for byte counts below `2^32`). -/
theorem scompressFinal_small (h : HSt Nat) (b : List Nat) (t : Nat) (ht : t < U32M)
    (M : Nat → Nat) (hm : ∀ w, w < 16 → M w = blockWord b w) :
    scompress h M (t % U32M) 0 0xFFFFFFFF 0 = scompressFinal h b t := by
  unfold scompressFinal
  rw [Nat.mod_eq_of_lt ht, Nat.div_eq_of_lt ht, Nat.zero_mod]
  exact scompress_congr h M (blockWord b) hm t 0 0xFFFFFFFF 0

/-- The node hash without children, as a scalar block chain. -/
theorem hash_node_none (values : List Nat) :
    hash_node none values =
      sblocks sInitialState (chunksOf16 values) 0 (4 * values.length) := by
  unfold hash_node blakeWords
  simp

/-- The node hash with children, as a scalar block chain over the
64 child bytes followed by the value words. -/
theorem hash_node_some (l rr : HSt Nat) (values : List Nat) :
    hash_node (some (l, rr)) values =
      sblocks sInitialState (chunksOf16 ((hWords l ++ hWords rr) ++ values)) 0
        (4 * (16 + values.length)) := by
  unfold hash_node blakeWords
  have hlen : ((hWords l ++ hWords rr) ++ values).length = 16 + values.length := by
    simp [hWords]; omega
  rw [hlen]

/-- Row `r` of chunk `q` produced by the packed path equals the scalar node
hash of row `16 q + r`. -/
theorem commitChunk_spec (prev : Option (List (HSt Nat))) (cols : List BaseColumn)
    (q r : Nat) (hr : r < 16) (hcnt : 4 * cols.length + 128 < U32M)
    (hne : prev ≠ none ∨ cols ≠ []) :
    ∃ ch, commitChunk prev cols q = some ch ∧ ch.length = 16 ∧
      ch[r]? = some (hash_node
        (prev.map fun p =>
          (p.getD (2 * (16 * q + r)) zeroHash, p.getD (2 * (16 * q + r) + 1) zeroHash))
        (cols.map fun c => c.atIdx (16 * q + r))) := by
  have hidx : ∀ (st : HSt Vec16), ((List.range 16).map (statesToHashes st))[r]? =
      some (st.lane r) := by
    intro st
    rw [List.getElem?_map, List.getElem?_range hr]
    simp only [Option.map_some']
    rw [statesToHashes_lane st r hr]
  have h2i : 2 * (16 * q + r) = 32 * q + 2 * r := by ring
  have h2i1 : 2 * (16 * q + r) + 1 = 32 * q + 2 * r + 1 := by ring
  by_cases hc : cols.isEmpty
  · have hcols : cols = [] := List.isEmpty_iff.mp hc
    subst hcols
    simp only [commitChunk, List.isEmpty_nil, if_true]
    cases prev with
    | none =>
      rcases hne with h | h
      · exact absurd rfl h
      · exact absurd rfl h
    | some p =>
      refine ⟨_, rfl, by simp, ?_⟩
      rw [hidx]
      simp only [Option.map_some', List.map_nil]
      congr 1
      rw [compress_finalize_lane, INITIAL_STATE_lane]
      rw [scompressFinal_small sInitialState
        (hWords (p.getD (32 * q + 2 * r) zeroHash) ++
          hWords (p.getD (32 * q + 2 * r + 1) zeroHash)) 64 (by norm_num [U32M]) _
        (fun w hw => by
          show transpose_msgs (prevMsgs p q) w r = _
          exact prevMsgs_lane p q r w hr hw)]
      rw [hash_node_some, h2i, List.append_nil]
      rw [chunksOf16_single _ (by simp [hWords])]
      rfl
  · have hk : cols ≠ [] := by
      intro hnil; subst hnil; simp at hc
    have hvne : cols.map (fun c => c.atIdx (16 * q + r)) ≠ [] := by
      simpa using hk
    have hsum : ((chunksOf16 cols).map List.length).sum = cols.length := by
      rw [← List.length_flatten, chunksOf16_flatten]
    have hchlen : (chunksOf16 cols).length ≤ cols.length / 16 + 1 :=
      chunksOf16_length_le cols
    simp only [commitChunk, if_neg hc]
    cases prev with
    | none =>
      refine ⟨_, rfl, by simp, ?_⟩
      rw [hidx]
      simp only [Option.map_none']
      congr 1
      rw [commitColChunks_lane (chunksOf16 cols) INITIAL_STATE 0 q r hr
        (chunksOf16_dropLast cols) (chunksOf16_le cols) (chunksOf16_ne_nil cols)
        (by simp only [U32M] at hcnt ⊢; omega)]
      rw [INITIAL_STATE_lane, hsum, ← chunksOf16_map]
      rw [hash_node_none]
      simp only [List.length_map, Nat.zero_add]
    | some p =>
      refine ⟨_, rfl, by simp, ?_⟩
      rw [hidx]
      simp only [Option.map_some']
      congr 1
      rw [commitColChunks_lane (chunksOf16 cols)
        (compress_unfinalized INITIAL_STATE (transpose_msgs (prevMsgs p q)) 64) 64 q r hr
        (chunksOf16_dropLast cols) (chunksOf16_le cols) (chunksOf16_ne_nil cols)
        (by simp only [U32M] at hcnt ⊢; omega)]
      rw [compress_unfinalized_lane, INITIAL_STATE_lane]
      rw [scompressUnfin_small sInitialState
        (hWords (p.getD (32 * q + 2 * r) zeroHash) ++
          hWords (p.getD (32 * q + 2 * r + 1) zeroHash)) 64 (by norm_num [U32M]) _
        (fun w hw => by
          show transpose_msgs (prevMsgs p q) w r = _
          exact prevMsgs_lane p q r w hr hw)]
      rw [hsum, ← chunksOf16_map]
      rw [hash_node_some, h2i]
      rw [chunksOf16_append16 _ _ (by simp [hWords]) hvne]
      rw [sblocks_cons_of_ne _ _ _ _ _ (chunksOf16_ne_nil _)]
      simp only [List.length_map, Nat.zero_add]
      congr 1
      ring

/-- Indexing into the concatenation of uniformly 16-element chunks. -/
theorem flatMap_range_getElem {α : Type} (f : Nat → List α) (N q r : Nat)
    (hL : ∀ j, j < N → (f j).length = 16) (hq : q < N) (hr : r < 16) :
    ((List.range N).flatMap f)[16 * q + r]? = (f q)[r]? := by
  induction N generalizing f q with
  | zero => omega
  | succ n ih =>
    rw [List.range_succ_eq_map, List.flatMap_cons, List.flatMap_map]
    cases q with
    | zero =>
      rw [List.getElem?_append_left (by rw [hL 0 (by omega)]; omega)]
      norm_num
    | succ q2 =>
      rw [List.getElem?_append_right (by rw [hL 0 (by omega)]; omega)]
      rw [hL 0 (by omega)]
      have he : 16 * (q2 + 1) + r - 16 = 16 * q2 + r := by omega
      rw [he]
      exact ih (fun j => f j.succ) q2 (fun j hj => hL (j + 1) (by omega)) (by omega)

/-- A monadic map over `Option` succeeds when every entry does, returning
the list of contained values. -/
theorem mapM_getD_some {α : Type} (f : Nat → Option (List α)) :
    ∀ l : List Nat, (∀ a ∈ l, (f a).isSome) →
      l.mapM f = some (l.map fun a => (f a).getD []) := by
  intro l
  induction l with
  | nil => intro h2; rfl
  | cons a l2 ih =>
    intro h
    have ha := h a (List.mem_cons_self a l2)
    obtain ⟨b, hb⟩ := Option.isSome_iff_exists.mp ha
    rw [List.mapM_cons, hb, ih (fun x hx => h x (List.mem_cons_of_mem a hx))]
    simp [hb]

/-- C1 (amended): `commit_on_layer` equals, entry for entry, the scalar
node hash of each row: BLAKE2s over the two child hashes at rows `2 i` and
`2 i + 1` (omitted when there is no previous layer) followed by each column
value at row `i`, in column order — except in the packed path with no
previous layer and no columns, where the implementation aborts on an
out-of-bounds read instead of returning the layer of empty-input hashes. -/
theorem commit_on_layer_spec (k : Nat) (prev : Option (List (HSt Nat)))
    (cols : List BaseColumn)
    (hprev : ∀ p ∈ prev, p.length = 2 ^ (k + 1))
    (hcols : ∀ c ∈ cols, c.length = 2 ^ k ∧ c.data.length = (2 ^ k + 15) / 16)
    (hcnt : 4 * cols.length + 128 < U32M)
    (hne : 4 ≤ k → prev ≠ none ∨ cols ≠ [])
    (i : Nat) (hi : i < 2 ^ k) :
    ∃ layer, commit_on_layer k prev cols = some layer ∧
      layer[i]? = some (hash_node
        (prev.map fun p => (p.getD (2 * i) zeroHash, p.getD (2 * i + 1) zeroHash))
        (cols.map fun c => c.atIdx i)) := by
  by_cases hk : k < 4
  · have hg : ((prev.all fun p => decide (2 ^ (k + 1) ≤ p.length)) &&
        (cols.all fun c => !c.data.isEmpty)) = true := by
      rw [Bool.and_eq_true]
      constructor
      · cases prev with
        | none => rfl
        | some p =>
          have hp := hprev p (by rfl)
          simp [Option.all, hp]
      · rw [List.all_eq_true]
        intro c hc
        have hd := (hcols c hc).2
        have h1 : 1 ≤ 2 ^ k := Nat.one_le_two_pow
        have hpos : 0 < (2 ^ k + 15) / 16 := by omega
        cases hdata : c.data with
        | nil => rw [hdata] at hd; simp at hd; omega
        | cons a l => rfl
    refine ⟨(List.range (2 ^ k)).map fun i2 => hash_node
      (prev.map fun p => (p.getD (2 * i2) zeroHash, p.getD (2 * i2 + 1) zeroHash))
      (cols.map fun c => c.atIdx i2), ?_, ?_⟩
    · unfold commit_on_layer
      rw [if_pos hk, if_pos hg]
    · rw [List.getElem?_map, List.getElem?_range hi]
      rfl
  · have hge : 4 ≤ k := by omega
    have hpow : 2 ^ k = 16 * 2 ^ (k - 4) := by
      have h4 : k - 4 + 4 = k := by omega
      calc 2 ^ k = 2 ^ (k - 4 + 4) := by rw [h4]
      _ = 2 ^ (k - 4) * 2 ^ 4 := pow_add 2 _ _
      _ = 16 * 2 ^ (k - 4) := by ring
    have hg : ((prev.all fun p => p.length == 2 ^ (k + 1)) &&
        (cols.all fun c => decide (2 ^ (k - 4) ≤ c.data.length))) = true := by
      rw [Bool.and_eq_true]
      constructor
      · cases prev with
        | none => rfl
        | some p =>
          have hp := hprev p (by rfl)
          simp [Option.all, hp]
      · rw [List.all_eq_true]
        intro c hc
        have hd := (hcols c hc).2
        simp only [decide_eq_true_eq]
        rw [hd, hpow]
        omega
    have hne2 : prev ≠ none ∨ cols ≠ [] := hne hge
    have hspec := fun (q r : Nat) (hr : r < 16) =>
      commitChunk_spec prev cols q r hr hcnt hne2
    have hsome : ∀ q : Nat, (commitChunk prev cols q).isSome := by
      intro q
      obtain ⟨ch, hch, h16, hv⟩ := hspec q 0 (by omega)
      rw [hch]
      rfl
    have hlen : ∀ q : Nat, ((commitChunk prev cols q).getD []).length = 16 := by
      intro q
      obtain ⟨ch, hch, h16, hv⟩ := hspec q 0 (by omega)
      rw [hch]
      exact h16
    refine ⟨(List.range (2 ^ (k - 4))).flatMap fun q => (commitChunk prev cols q).getD [],
      ?_, ?_⟩
    · unfold commit_on_layer
      rw [if_neg (by omega), if_pos hg]
      rw [mapM_getD_some (commitChunk prev cols) (List.range (2 ^ (k - 4)))
        (fun a _ => hsome a)]
      simp only [Option.map_some']
      rw [List.flatMap_def]
    · have hq : i / 16 < 2 ^ (k - 4) := by omega
      have hieq : 16 * (i / 16) + i % 16 = i := by omega
      rw [← hieq]
      rw [flatMap_range_getElem _ _ _ _ (fun j _ => hlen j) hq (by omega)]
      obtain ⟨ch, hch, h16, hv⟩ := hspec (i / 16) (i % 16) (by omega)
      have hchd : (commitChunk prev cols (i / 16)).getD [] = ch := by rw [hch]; rfl
      rw [hchd]
      exact hv

/-- `commit_on_layer` / `hash_node` agreement on a concrete one-row layer. -/
theorem commit_on_layer_spec_witness :
    ∃ layer, commit_on_layer 0 none [BaseColumn.mk [vsplat 0] 1] = some layer ∧
      layer[0]? = some (hash_node none [BaseColumn.atIdx ⟨[vsplat 0], 1⟩ 0]) := by
  have h := commit_on_layer_spec 0 none [BaseColumn.mk [vsplat 0] 1]
    (by intro p hp; cases hp)
    (by
      intro c hc
      rw [List.mem_singleton] at hc
      subst hc
      exact ⟨rfl, rfl⟩)
    (by norm_num [U32M]) (fun _ => Or.inr (by simp)) 0 (by norm_num)
  simpa using h

/-- C1 counterexample: in the packed path with no previous layer and no
columns, `commit_on_layer` aborts — the empty-columns branch reads the
16-element zero slice at flat indices up to 255 — and returns no layer,
although the scalar node hash of every row (BLAKE2s of the empty input)
is well defined. -/
theorem commit_on_layer_empty_aborts : commit_on_layer 4 none [] = none := rfl

/-- Word 0, lane `j` of `hash_16` as a scalar compression. -/
theorem hash_16_h0_lane (m : Nat → Vec16) (t : Nat) (j : Nat) :
    (hash_16 m t).h0 j =
      (scompress sInitialState (msgLane m j) (t % U32M) 0 0xFFFFFFFF 0).h0 := by
  have h : (hash_16 m t).lane j =
      scompress sInitialState (msgLane m j) (t % U32M) 0 0xFFFFFFFF 0 := by
    unfold hash_16
    rw [compress_finalize_lane, INITIAL_STATE_lane]
  exact congrArg HSt.h0 h

/-- Lane `j` of the grinder's message vectors is the scalar candidate block
of nonce `hi * 2^20 + low + j` (with the `u64` wrap of the boundary
bucket). -/
theorem grindMsgs_lane (digest : HSt Nat) (hi low j : Nat)
    (hhi : hi ≤ 2 ^ 44) (hlj : low + j < 2 ^ 20) :
    msgLane (grindMsgs digest (hi * 2 ^ 20 % U32M + low) (hi / 2 ^ 12 % U32M)) j =
      grindScalarMsg digest (hi * 2 ^ 20 % 2 ^ 64 + low + j) := by
  funext idx
  unfold msgLane grindMsgs grindScalarMsg
  by_cases h7 : idx ≤ 7
  · simp [h7]
  · by_cases h8 : idx = 8
    · subst h8
      show (hi * 2 ^ 20 % U32M + low + j) % U32M = (hi * 2 ^ 20 % 2 ^ 64 + low + j) % U32M
      simp only [U32M]
      omega
    · by_cases h9 : idx = 9
      · subst h9
        show hi / 2 ^ 12 % U32M = (hi * 2 ^ 20 % 2 ^ 64 + low + j) / U32M
        simp only [U32M]
        omega
      · simp [h7, h8, h9]

/-- A search over all-false lanes finds nothing. -/
theorem firstTrueLane_eq_none (mask : Nat → Bool) (rem j : Nat)
    (h : ∀ t, j ≤ t → t < j + rem → mask t = false) :
    firstTrueLane mask rem j = none := by
  induction rem generalizing j with
  | zero => rfl
  | succ n ih =>
    simp only [firstTrueLane]
    rw [h j (Nat.le_refl j) (by omega)]
    simp only [Bool.false_eq_true, if_false]
    exact ih (j + 1) (fun t ht1 ht2 => h t (by omega) (by omega))

/-- The search returns the first true lane. -/
theorem firstTrueLane_eq_some (mask : Nat → Bool) (rem j t : Nat)
    (hj : j ≤ t) (ht : t < j + rem) (hm : mask t = true)
    (hmin : ∀ s, j ≤ s → s < t → mask s = false) :
    firstTrueLane mask rem j = some t := by
  induction rem generalizing j with
  | zero => omega
  | succ n ih =>
    simp only [firstTrueLane]
    by_cases hjt : j = t
    · subst hjt
      rw [hm]
      simp
    · rw [hmin j (Nat.le_refl j) (by omega)]
      simp only [Bool.false_eq_true, if_false]
      exact ih (j + 1) (by omega) (by omega) (fun s hs1 hs2 => hmin s (by omega) hs2)

/-- If no nonce in the remaining window succeeds, the sweep loop fails. -/
theorem grindSweeps_eq_none (digest : HSt Nat) (hi pb : Nat) (hhi : hi ≤ 2 ^ 44) :
    ∀ count low, low + 16 * count ≤ 2 ^ 20 →
    (∀ m, hi * 2 ^ 20 % 2 ^ 64 + low ≤ m →
      m < hi * 2 ^ 20 % 2 ^ 64 + low + 16 * count → ¬ grindPred digest pb m) →
    grindSweeps digest hi pb count low = none := by
  intro count
  induction count with
  | zero => intro low _ _; rfl
  | succ n ih =>
    intro low hbound hnone
    simp only [grindSweeps]
    rw [firstTrueLane_eq_none _ 16 0 (fun t ht1 ht2 => by
      simp only [decide_eq_false_iff_not]
      rw [hash_16_h0_lane, grindMsgs_lane digest hi low t hhi (by omega)]
      rw [show (40 : Nat) % U32M = 40 by norm_num [U32M]]
      exact hnone _ (by omega) (by omega))]
    exact ih (low + 16) (by omega) (fun m hm1 hm2 => hnone m (by omega) (by omega))

/-- The sweep loop returns the least succeeding nonce of its window. -/
theorem grindSweeps_eq_some (digest : HSt Nat) (hi pb : Nat) (hhi : hi ≤ 2 ^ 44) :
    ∀ count low n, low + 16 * count ≤ 2 ^ 20 →
    hi * 2 ^ 20 % 2 ^ 64 + low ≤ n →
    n < hi * 2 ^ 20 % 2 ^ 64 + low + 16 * count →
    grindPred digest pb n →
    (∀ m, hi * 2 ^ 20 % 2 ^ 64 + low ≤ m → m < n → ¬ grindPred digest pb m) →
    grindSweeps digest hi pb count low = some n := by
  intro count
  induction count with
  | zero => intro low n _ h1 h2 _ _; omega
  | succ cnt ih =>
    intro low n hbound hn1 hn2 hpred hmin
    simp only [grindSweeps]
    by_cases hfirst : n < hi * 2 ^ 20 % 2 ^ 64 + low + 16
    · rw [firstTrueLane_eq_some _ 16 0 (n - (hi * 2 ^ 20 % 2 ^ 64 + low)) (by omega)
        (by omega)
        (by
          simp only [decide_eq_true_eq]
          rw [hash_16_h0_lane,
            grindMsgs_lane digest hi low (n - (hi * 2 ^ 20 % 2 ^ 64 + low)) hhi (by omega)]
          rw [show (40 : Nat) % U32M = 40 by norm_num [U32M]]
          have he : hi * 2 ^ 20 % 2 ^ 64 + low + (n - (hi * 2 ^ 20 % 2 ^ 64 + low)) = n := by
            omega
          rw [he]
          exact hpred)
        (fun s hs1 hs2 => by
          simp only [decide_eq_false_iff_not]
          rw [hash_16_h0_lane, grindMsgs_lane digest hi low s hhi (by omega)]
          rw [show (40 : Nat) % U32M = 40 by norm_num [U32M]]
          exact hmin _ (by omega) (by omega))]
      show some (hi * 2 ^ 20 % 2 ^ 64 + low + (n - (hi * 2 ^ 20 % 2 ^ 64 + low))) = some n
      congr 1
      omega
    · rw [firstTrueLane_eq_none _ 16 0 (fun t ht1 ht2 => by
        simp only [decide_eq_false_iff_not]
        rw [hash_16_h0_lane, grindMsgs_lane digest hi low t hhi (by omega)]
        rw [show (40 : Nat) % U32M = 40 by norm_num [U32M]]
        exact hmin _ (by omega) (by omega))]
      exact ih (low + 16) n (by omega) (by omega) (by omega) hpred
        (fun m hm1 hm2 => hmin m (by omega) hm2)

/-- The bucket loop returns the globally least succeeding nonce once it
reaches its bucket. -/
theorem grindOuter_finds (digest : HSt Nat) (pb n0 : Nat) (hn : n0 < 2 ^ 64)
    (hpred : grindPred digest pb n0)
    (hmin : ∀ m, m < n0 → ¬ grindPred digest pb m) :
    ∀ count hi, hi ≤ n0 / 2 ^ 20 → n0 / 2 ^ 20 < hi + count →
    grindOuter digest pb count hi = some n0 := by
  intro count
  induction count with
  | zero => intro hi h1 h2; omega
  | succ cnt ih =>
    intro hi h1 h2
    simp only [grindOuter]
    by_cases hhi : hi = n0 / 2 ^ 20
    · subst hhi
      rw [show grind_blake digest (n0 / 2 ^ 20) pb = some n0 from
          grindSweeps_eq_some digest (n0 / 2 ^ 20) pb (by omega) (2 ^ 16) 0 n0
            (by omega) (by omega) (by omega) hpred
            (fun m hm1 hm2 => hmin m hm2)]
    · have hlt : hi < n0 / 2 ^ 20 := by omega
      rw [show grind_blake digest hi pb = none from
          grindSweeps_eq_none digest hi pb (by omega) (2 ^ 16) 0 (by omega)
            (fun m hm1 hm2 => hmin m (by omega))]
      exact ih (hi + 1) (by omega) (by omega)

/-- C2: for every digest and every `pow_bits ≤ 32`, when a winning nonce
exists below `2^64` the grinder returns the smallest 64-bit nonce whose
digest-and-nonce block compresses (t = 40, finalized) to a first state word
with at least `pow_bits` trailing zeros; no smaller nonce satisfies this. -/
theorem grind_finds_least (digest : HSt Nat) (pb : Nat) (hpb : pb ≤ 32)
    (hex : ∃ n, n < 2 ^ 64 ∧ grindPred digest pb n) :
    grind digest pb = some (Nat.find hex) := by
  have hspec := Nat.find_spec hex
  have hmin : ∀ m, m < Nat.find hex → ¬ grindPred digest pb m := by
    intro m hm hp
    exact Nat.find_min hex hm ⟨by omega, hp⟩
  unfold grind
  rw [if_pos hpb]
  exact grindOuter_finds digest pb (Nat.find hex) hspec.1 hspec.2 hmin (2 ^ 44 + 1) 0
    (by omega) (by omega)

/-- The grinder theorem applied at the zero digest with zero difficulty. -/
theorem grind_finds_least_witness :
    grind zeroHash 0 =
      some (Nat.find (⟨0, by norm_num, Nat.zero_le _⟩ :
        ∃ n, n < 2 ^ 64 ∧ grindPred zeroHash 0 n)) :=
  grind_finds_least zeroHash 0 (by norm_num) _

/-- The circle group law is commutative. -/
theorem CirclePoint.add_comm (p q : CirclePoint) : p.add q = q.add p := by
  ext <;> simp only [CirclePoint.add] <;> ring

/-- The circle group law is associative. -/
theorem CirclePoint.add_assoc (p q r : CirclePoint) :
    (p.add q).add r = p.add (q.add r) := by
  ext <;> simp only [CirclePoint.add] <;> ring

/-- `(1, 0)` is a right identity. -/
theorem CirclePoint.add_zero (p : CirclePoint) : p.add CirclePoint.zero = p := by
  ext <;> simp [CirclePoint.add, CirclePoint.zero]

/-- Conjugation distributes over the group law. -/
theorem CirclePoint.neg_add (p q : CirclePoint) :
    (p.add q).neg = p.neg.add q.neg := by
  ext <;> simp only [CirclePoint.add, CirclePoint.neg] <;> ring

/-- Conjugation fixes the identity. -/
theorem CirclePoint.neg_zero : CirclePoint.zero.neg = CirclePoint.zero := by
  ext <;> simp [CirclePoint.neg, CirclePoint.zero]

/-- Unfolding of the scalar multiple. -/
theorem CirclePoint.mul_succ (p : CirclePoint) (n : Nat) :
    p.mul (n + 1) = (p.mul n).add p := rfl

/-- Scalar multiples add exponents. -/
theorem CirclePoint.mul_add_exp (p : CirclePoint) (a b : Nat) :
    p.mul (a + b) = (p.mul a).add (p.mul b) := by
  induction b with
  | zero => rw [Nat.add_zero]; exact (CirclePoint.add_zero _).symm
  | succ n ih =>
    rw [show a + (n + 1) = a + n + 1 from rfl, CirclePoint.mul_succ, ih,
      CirclePoint.mul_succ, CirclePoint.add_assoc]

/-- Conjugation commutes with scalar multiples. -/
theorem CirclePoint.neg_mul (p : CirclePoint) (n : Nat) :
    (p.mul n).neg = p.neg.mul n := by
  induction n with
  | zero => exact CirclePoint.neg_zero
  | succ n ih => rw [CirclePoint.mul_succ, CirclePoint.neg_add, ih, CirclePoint.mul_succ]

/-- Scalar multiples distribute over the law. -/
theorem CirclePoint.add_mul_distrib (p q : CirclePoint) (n : Nat) :
    (p.add q).mul n = (p.mul n).add (q.mul n) := by
  induction n with
  | zero => exact (CirclePoint.add_zero _).symm
  | succ n ih =>
    rw [CirclePoint.mul_succ, ih, CirclePoint.mul_succ, CirclePoint.mul_succ]
    ext <;> simp only [CirclePoint.add] <;> ring

/-- Scalar multiples of the identity. -/
theorem CirclePoint.zero_mul_n (n : Nat) :
    CirclePoint.zero.mul n = CirclePoint.zero := by
  induction n with
  | zero => rfl
  | succ n ih => rw [CirclePoint.mul_succ, ih, CirclePoint.add_zero]

/-- On the unit circle, conjugation is the group inverse. -/
theorem CirclePoint.self_add_neg (s : CirclePoint) (hs : s.onCircle) :
    s.add s.neg = CirclePoint.zero := by
  unfold CirclePoint.onCircle at hs
  ext
  · simp only [CirclePoint.add, CirclePoint.neg, CirclePoint.zero]
    linear_combination hs
  · simp only [CirclePoint.add, CirclePoint.neg, CirclePoint.zero]
    ring

/-- The telescoping step of the iterator: adding
`s^(b1) − s^(b0)` moves `c + s^m` to `c + s^(m2)` whenever
`m + b1 = m2 + b0` and `s` lies on the circle. -/
theorem step_core (c s : CirclePoint) (hs : s.onCircle) (m m2 b0 b1 : Nat)
    (h : m + b1 = m2 + b0) :
    ((s.mul m).add c).add ((s.mul b1).add ((s.mul b0).neg)) = (s.mul m2).add c := by
  have hc : (s.mul m).add (s.mul b1) = (s.mul m2).add (s.mul b0) := by
    rw [← CirclePoint.mul_add_exp, ← CirclePoint.mul_add_exp, h]
  have hz : (s.mul b0).add ((s.mul b0).neg) = CirclePoint.zero := by
    rw [CirclePoint.neg_mul, ← CirclePoint.add_mul_distrib,
      CirclePoint.self_add_neg s hs, CirclePoint.zero_mul_n]
  calc ((s.mul m).add c).add ((s.mul b1).add ((s.mul b0).neg))
      = (((s.mul m).add (s.mul b1)).add ((s.mul b0).neg)).add c := by
        ext <;> simp only [CirclePoint.add, CirclePoint.neg] <;> ring
    _ = (((s.mul m2).add (s.mul b0)).add ((s.mul b0).neg)).add c := by rw [hc]
    _ = ((s.mul m2).add ((s.mul b0).add ((s.mul b0).neg))).add c := by
        rw [CirclePoint.add_assoc (s.mul m2) (s.mul b0) ((s.mul b0).neg)]
    _ = ((s.mul m2).add CirclePoint.zero).add c := by rw [hz]
    _ = (s.mul m2).add c := by rw [CirclePoint.add_zero]

/-- Reversing zero gives zero. -/
theorem bitrev_zero_eq (n : Nat) : bitrev n 0 = 0 := by
  induction n with
  | zero => rfl
  | succ n ih => simp [bitrev, ih]

/-- The reversal lies below `2^n`. -/
theorem bitrev_lt (n : Nat) : ∀ i, bitrev n i < 2 ^ n := by
  induction n with
  | zero => intro i; simp [bitrev]
  | succ n ih =>
    intro i
    simp only [bitrev]
    have h2 := ih (i / 2)
    have hp : 2 ^ (n + 1) = 2 * 2 ^ n := by ring
    rcases Nat.mod_two_eq_zero_or_one i with h | h <;> rw [h] <;> omega

/-- Reversal splits over disjoint bit ranges: the low `a` bits land in the
top, the remaining `b` bits in the bottom. -/
theorem bitrev_split (a : Nat) : ∀ b m i, i < 2 ^ a → m < 2 ^ b →
    bitrev (a + b) (2 ^ a * m + i) = bitrev a i * 2 ^ b + bitrev b m := by
  induction a with
  | zero =>
    intro b m i hi hm
    have hz : i = 0 := by omega
    subst hz
    simp [bitrev]
  | succ a ih =>
    intro b m i hi hm
    have hadd : a + 1 + b = a + b + 1 := by omega
    rw [hadd]
    simp only [bitrev]
    have hx : 2 ^ (a + 1) * m = 2 * (2 ^ a * m) := by ring
    have h1 : (2 ^ (a + 1) * m + i) % 2 = i % 2 := by rw [hx]; omega
    have h2 : (2 ^ (a + 1) * m + i) / 2 = 2 ^ a * m + i / 2 := by rw [hx]; omega
    rw [h1, h2, ih b m (i / 2) (by have hp := pow_succ 2 a; omega) hm]
    have hpab : 2 ^ (a + b) = 2 ^ a * 2 ^ b := pow_add 2 a b
    rw [hpab]
    ring

/-- The lowest `trailingOnes i + 1` bits of `i` are `0111…1`. -/
theorem tOnesAux_spec : ∀ fuel i, i < 2 ^ fuel →
    i % 2 ^ (tOnesAux fuel i + 1) = 2 ^ (tOnesAux fuel i) - 1 := by
  intro fuel
  induction fuel with
  | zero =>
    intro i hi
    interval_cases i
    rfl
  | succ f ih =>
    intro i hi
    by_cases h2 : i % 2 = 1
    · simp only [tOnesAux, if_pos h2]
      set t := tOnesAux f (i / 2) with ht
      have hIH := ih (i / 2) (by have hp := pow_succ 2 f; omega)
      rw [← ht] at hIH
      set Q := i / 2 / 2 ^ (t + 1) with hQ
      have he1 : 1 ≤ 2 ^ t := Nat.one_le_two_pow
      have hee : 2 ^ (t + 1) = 2 * 2 ^ t := by ring
      have heee : 2 ^ (t + 2) = 2 * 2 ^ (t + 1) := by ring
      have hq := Nat.div_add_mod (i / 2) (2 ^ (t + 1))
      rw [← hQ] at hq
      have hval : i = 2 ^ (t + 2) * Q + (2 ^ (t + 1) - 1) := by
        have hstep : 2 * (2 ^ (t + 1) * Q) = 2 ^ (t + 2) * Q := by rw [heee]; ring
        omega
      rw [show 1 + t + 1 = t + 2 by omega, show 1 + t = t + 1 by omega]
      rw [hval, Nat.mul_add_mod]
      exact Nat.mod_eq_of_lt (by omega)
    · simp only [tOnesAux, if_neg h2]
      have : i % 2 = 0 := by omega
      simpa using this

/-- Bound on the trailing-ones count from a bound on the successor. -/
theorem trailingOnes_lt_of_lt (n N : Nat) (hN : n + 1 < 2 ^ N) (h64 : n < 2 ^ 64) :
    trailingOnes n < N := by
  have hspec := tOnesAux_spec 64 n h64
  rw [show tOnesAux 64 n = trailingOnes n from rfl] at hspec
  have h1 : 2 ^ trailingOnes n - 1 ≤ n := by
    calc 2 ^ trailingOnes n - 1 = n % 2 ^ (trailingOnes n + 1) := hspec.symm
      _ ≤ n := Nat.mod_le _ _
  have he1 : 1 ≤ 2 ^ trailingOnes n := Nat.one_le_two_pow
  have h2 : 2 ^ trailingOnes n < 2 ^ N := by omega
  exact (Nat.pow_lt_pow_iff_right (by omega)).mp h2

/-- The bit-reversal increment identity: the reversal of `n + 1` is obtained
from the reversal of `n` by adding the reversal of `2^e` and removing the
reversal of `2^e − 1`, where `e` counts the trailing one-bits of `n`. -/
theorem bitrev_succ_identity (N n : Nat) (h64 : n < 2 ^ 64) (hn : n + 1 < 2 ^ N) :
    bitrev N n + bitrev N (2 ^ trailingOnes n) =
      bitrev N (n + 1) + bitrev N (2 ^ trailingOnes n - 1) := by
  have hspec := tOnesAux_spec 64 n h64
  rw [show tOnesAux 64 n = trailingOnes n from rfl] at hspec
  have heN : trailingOnes n < N := trailingOnes_lt_of_lt n N hn h64
  set e := trailingOnes n with he
  set Q := n / 2 ^ (e + 1) with hQ
  have hdm := Nat.div_add_mod n (2 ^ (e + 1))
  rw [← hQ] at hdm
  have he1 : 1 ≤ 2 ^ e := Nat.one_le_two_pow
  have hee : 2 ^ (e + 1) = 2 * 2 ^ e := by ring
  have hd : n = 2 ^ (e + 1) * Q + (2 ^ e - 1) := by omega
  have hd1 : n + 1 = 2 ^ (e + 1) * Q + 2 ^ e := by omega
  set b := N - (e + 1) with hb
  have hNe : N = e + 1 + b := by omega
  have hQb : Q < 2 ^ b := by
    have hlt : n < 2 ^ (e + 1) * 2 ^ b := by
      have hp : 2 ^ N = 2 ^ (e + 1) * 2 ^ b := by rw [hNe, pow_add]
      omega
    exact Nat.div_lt_of_lt_mul hlt
  have h1 : bitrev N n = bitrev (e + 1) (2 ^ e - 1) * 2 ^ b + bitrev b Q := by
    rw [hNe]
    conv_lhs => rw [hd]
    exact bitrev_split (e + 1) b Q (2 ^ e - 1) (by omega) hQb
  have h2 : bitrev N (n + 1) = bitrev (e + 1) (2 ^ e) * 2 ^ b + bitrev b Q := by
    rw [hNe, hd1]
    exact bitrev_split (e + 1) b Q (2 ^ e) (by omega) hQb
  have h3 : bitrev N (2 ^ e) = bitrev (e + 1) (2 ^ e) * 2 ^ b := by
    rw [hNe]
    have hsp := bitrev_split (e + 1) b 0 (2 ^ e) (by omega) (by positivity)
    rw [Nat.mul_zero, Nat.zero_add, bitrev_zero_eq, Nat.add_zero] at hsp
    exact hsp
  have h4 : bitrev N (2 ^ e - 1) = bitrev (e + 1) (2 ^ e - 1) * 2 ^ b := by
    rw [hNe]
    have hsp := bitrev_split (e + 1) b 0 (2 ^ e - 1) (by omega) (by positivity)
    rw [Nat.mul_zero, Nat.zero_add, bitrev_zero_eq, Nat.add_zero] at hsp
    exact hsp
  rw [h1, h2, h3, h4]
  ring

/-- The loop invariant of the iterator: after `n` advances (each of them a
flip read within the table) the cursor holds `n` and the sixteen lanes of
the current batch hold the domain points at the bit-reversed indices
`16 n`, …, `16 n + 15`. -/
theorem iter_invariant (c s : CirclePoint) (k : Nat) (hs : s.onCircle)
    (hk : 4 ≤ k) (hk31 : k ≤ 31) :
    ∀ n, n < 2 ^ (k - 4) →
      ∃ itn, iterSteps ⟨c, s, k, 0, fun j2 => domainAt c s k (bitrev k j2)⟩ n =
          some itn ∧ itn.s = s ∧ itn.k = k ∧ itn.i = n ∧
        ∀ j, j < 16 → itn.current j = domainAt c s k (bitrev k (16 * n + j)) := by
  intro n
  induction n with
  | zero =>
    intro h0
    refine ⟨_, rfl, rfl, rfl, rfl, ?_⟩
    intro j hj
    simp
  | succ n ih =>
    intro hn
    have hn2 : n < 2 ^ (k - 4) := by omega
    obtain ⟨itn, hst, hs2, hk2, hi2, hcur⟩ := ih hn2
    have h64 : n < 2 ^ 64 := by
      have hle : 2 ^ (k - 4) ≤ 2 ^ 64 := Nat.pow_le_pow_right (by omega) (by omega)
      omega
    have hbid := bitrev_succ_identity (k - 4) n h64 hn
    have heN : trailingOnes n < k - 4 := trailingOnes_lt_of_lt n (k - 4) hn h64
    set e := trailingOnes n with he
    have hflip : iterFlips s k e =
        some ((CirclePoint.mul s (bitrev (k - 4) (2 ^ e))).add
          ((CirclePoint.mul s (bitrev (k - 4) (2 ^ e - 1))).neg)) := by
      unfold iterFlips
      rw [if_neg (by omega), if_pos heN]
    have hadv : iterAdvance itn = some ⟨itn.c, s, k, n + 1, fun j =>
        (itn.current j).add
          (if j % 2 = 0 then
            (CirclePoint.mul s (bitrev (k - 4) (2 ^ e))).add
              ((CirclePoint.mul s (bitrev (k - 4) (2 ^ e - 1))).neg)
           else ((CirclePoint.mul s (bitrev (k - 4) (2 ^ e))).add
              ((CirclePoint.mul s (bitrev (k - 4) (2 ^ e - 1))).neg)).neg)⟩ := by
      unfold iterAdvance
      rw [hs2, hk2, hi2, hflip]
      rfl
    have hstep : iterSteps ⟨c, s, k, 0, fun j2 => domainAt c s k (bitrev k j2)⟩
        (n + 1) = iterAdvance itn := by
      simp only [iterSteps]
      rw [hst]
      rfl
    refine ⟨_, hstep.trans hadv, rfl, rfl, rfl, ?_⟩
    intro j hj
    show (itn.current j).add _ = _
    rw [hcur j hj]
    have hsplit : ∀ m2, m2 < 2 ^ (k - 4) →
        bitrev k (16 * m2 + j) = bitrev 4 j * 2 ^ (k - 4) + bitrev (k - 4) m2 := by
      intro m2 hm2
      have hk4 : 4 + (k - 4) = k := by omega
      have hsp := bitrev_split 4 (k - 4) m2 j (by omega) hm2
      rw [hk4] at hsp
      rw [show (2 : Nat) ^ 4 * m2 = 16 * m2 by norm_num] at hsp
      exact hsp
    rw [hsplit n hn2, hsplit (n + 1) hn]
    have hpow : 2 ^ (k - 1) = 8 * 2 ^ (k - 4) := by
      rw [show k - 1 = k - 4 + 3 by omega, pow_add]; ring
    have hbrn := bitrev_lt (k - 4) n
    have hbrn1 := bitrev_lt (k - 4) (n + 1)
    have hb4 : bitrev 4 j = j % 2 * 8 + bitrev 3 (j / 2) := rfl
    have hb3 := bitrev_lt 3 (j / 2)
    rcases Nat.mod_two_eq_zero_or_one j with hpar | hpar
    · rw [if_pos hpar]
      rw [hpar] at hb4
      have hT7 : bitrev 4 j ≤ 7 := by omega
      set X := bitrev 4 j * 2 ^ (k - 4) with hX
      have hsucc : (bitrev 4 j + 1) * 2 ^ (k - 4) = X + 2 ^ (k - 4) := by
        rw [hX, Nat.succ_mul]
      have hmul := Nat.mul_le_mul_right (2 ^ (k - 4)) (show bitrev 4 j + 1 ≤ 8 by omega)
      rw [hsucc] at hmul
      have hidx1 : X + bitrev (k - 4) n < 2 ^ (k - 1) := by omega
      have hidx2 : X + bitrev (k - 4) (n + 1) < 2 ^ (k - 1) := by omega
      simp only [domainAt]
      rw [if_pos hidx1, if_pos hidx2]
      exact step_core c s hs (X + bitrev (k - 4) n) (X + bitrev (k - 4) (n + 1))
        (bitrev (k - 4) (2 ^ e - 1)) (bitrev (k - 4) (2 ^ e)) (by omega)
    · rw [if_neg (show ¬ j % 2 = 0 by omega)]
      rw [hpar] at hb4
      have hT8 : 8 ≤ bitrev 4 j := by omega
      set X := bitrev 4 j * 2 ^ (k - 4) with hX
      have hmul := Nat.mul_le_mul_right (2 ^ (k - 4)) hT8
      rw [← hX] at hmul
      have hge1 : ¬ X + bitrev (k - 4) n < 2 ^ (k - 1) := by omega
      have hge2 : ¬ X + bitrev (k - 4) (n + 1) < 2 ^ (k - 1) := by omega
      simp only [domainAt]
      rw [if_neg hge1, if_neg hge2]
      rw [← CirclePoint.neg_add]
      exact congrArg CirclePoint.neg
        (step_core c s hs (X + bitrev (k - 4) n - 2 ^ (k - 1))
          (X + bitrev (k - 4) (n + 1) - 2 ^ (k - 1))
          (bitrev (k - 4) (2 ^ e - 1)) (bitrev (k - 4) (2 ^ e)) (by omega))

/-- C5 (amended): for every circle domain of log size `4 ≤ k ≤ 30` the
iterator emits exactly `2^(k−4)` batches — lane `j` of batch `n` being the
domain point at the bit-reversed index of `16 n + j` — and then the
end-of-sequence marker.  The bound `k ≤ 30` excludes log size 31, which the
constructor accepts but where the final advance reads one past the
27-entry flip table and aborts. -/
theorem iterator_spec (c s : CirclePoint) (k : Nat) (hs : s.onCircle)
    (hk30 : k ≤ 30) (it0 : CircleDomainBitRevIterator)
    (hnew : iterNew c s k = some it0) :
    (∀ n, n < 2 ^ (k - 4) →
      ∃ itn pr, iterSteps it0 n = some itn ∧ iterNext itn = some (some pr) ∧
        ∀ j, j < 16 → pr.1 j = domainAt c s k (bitrev k (16 * n + j))) ∧
      ∃ itl, iterSteps it0 (2 ^ (k - 4)) = some itl ∧ iterNext itl = some none := by
  unfold iterNew at hnew
  by_cases h1 : k < 4
  · rw [if_pos h1] at hnew
    exact absurd hnew (by simp)
  rw [if_neg h1] at hnew
  by_cases h2 : 27 < k - 4
  · rw [if_pos h2] at hnew
    exact absurd hnew (by simp)
  rw [if_neg h2] at hnew
  have hit : it0 = ⟨c, s, k, 0, fun j => domainAt c s k (bitrev k j)⟩ :=
    (Option.some_injective _ hnew).symm
  subst hit
  have hk : 4 ≤ k := by omega
  have hpw : 2 ^ k = 16 * 2 ^ (k - 4) := by
    have h4 : k - 4 + 4 = k := by omega
    calc 2 ^ k = 2 ^ (k - 4 + 4) := by rw [h4]
      _ = 2 ^ (k - 4) * 2 ^ 4 := pow_add 2 (k - 4) 4
      _ = 16 * 2 ^ (k - 4) := by ring
  constructor
  · intro n hn
    obtain ⟨itn, hst, hs2, hk2, hi2, hcur⟩ :=
      iter_invariant c s k hs hk (by omega) n hn
    have h64 : n < 2 ^ 64 := by
      have hle : 2 ^ (k - 4) ≤ 2 ^ 64 := Nat.pow_le_pow_right (by omega) (by omega)
      omega
    obtain ⟨f, hf⟩ : ∃ f, iterFlips s k (trailingOnes n) = some f := by
      have hk26 : 2 ^ (k - 4) ≤ 2 ^ 26 := Nat.pow_le_pow_right (by omega) (by omega)
      have h2627 : (2 : Nat) ^ 26 < 2 ^ 27 := by norm_num
      have he27 : trailingOnes n < 27 :=
        trailingOnes_lt_of_lt n 27 (by omega) h64
      unfold iterFlips
      rw [if_neg (by omega)]
      by_cases hcase : trailingOnes n < k - 4
      · exact ⟨_, by rw [if_pos hcase]⟩
      · exact ⟨_, by rw [if_neg hcase]⟩
    have hadv : iterAdvance itn = some ⟨itn.c, s, k, n + 1, fun j =>
        (itn.current j).add (if j % 2 = 0 then f else f.neg)⟩ := by
      unfold iterAdvance
      rw [hs2, hk2, hi2, hf]
      rfl
    refine ⟨itn, (itn.current, ⟨itn.c, s, k, n + 1, fun j =>
      (itn.current j).add (if j % 2 = 0 then f else f.neg)⟩), hst, ?_, ?_⟩
    · unfold iterNext
      rw [hk2, hi2, if_neg (show ¬ 2 ^ k ≤ n * 16 by omega), hadv]
      rfl
    · intro j hj
      exact hcur j hj
  · have h1le : 1 ≤ 2 ^ (k - 4) := Nat.one_le_two_pow
    obtain ⟨itn, hst, hs2, hk2, hi2, hcur⟩ :=
      iter_invariant c s k hs hk (by omega) (2 ^ (k - 4) - 1) (by omega)
    have h64 : 2 ^ (k - 4) - 1 < 2 ^ 64 := by
      have hle : 2 ^ (k - 4) ≤ 2 ^ 64 := Nat.pow_le_pow_right (by omega) (by omega)
      omega
    obtain ⟨f, hf⟩ : ∃ f, iterFlips s k (trailingOnes (2 ^ (k - 4) - 1)) = some f := by
      have hk26 : 2 ^ (k - 4) ≤ 2 ^ 26 := Nat.pow_le_pow_right (by omega) (by omega)
      have h2627 : (2 : Nat) ^ 26 < 2 ^ 27 := by norm_num
      have he27 : trailingOnes (2 ^ (k - 4) - 1) < 27 :=
        trailingOnes_lt_of_lt (2 ^ (k - 4) - 1) 27 (by omega) h64
      unfold iterFlips
      rw [if_neg (by omega)]
      by_cases hcase : trailingOnes (2 ^ (k - 4) - 1) < k - 4
      · exact ⟨_, by rw [if_pos hcase]⟩
      · exact ⟨_, by rw [if_neg hcase]⟩
    have hadv : iterAdvance itn = some ⟨itn.c, s, k, 2 ^ (k - 4) - 1 + 1, fun j =>
        (itn.current j).add (if j % 2 = 0 then f else f.neg)⟩ := by
      unfold iterAdvance
      rw [hs2, hk2, hi2, hf]
      rfl
    have hstep : iterSteps ⟨c, s, k, 0, fun j => domainAt c s k (bitrev k j)⟩
        (2 ^ (k - 4)) = iterAdvance itn := by
      rw [show 2 ^ (k - 4) = 2 ^ (k - 4) - 1 + 1 by omega]
      simp only [iterSteps]
      rw [hst]
      rfl
    have hnext : ∀ it2 : CircleDomainBitRevIterator, it2.k = k →
        it2.i = 2 ^ (k - 4) → iterNext it2 = some none := by
      intro it2 hik hii
      unfold iterNext
      rw [hik, hii, if_pos (by omega)]
    refine ⟨_, hstep.trans hadv, hnext _ rfl ?_⟩
    show 2 ^ (k - 4) - 1 + 1 = 2 ^ (k - 4)
    omega

/-- C5 counterexample: the constructor accepts log size 31, the iterator
advances through the first `2^27 − 1` batches, and the final emission
aborts: the flip level is the trailing-ones count 27 of the cursor, one
past the 27-entry flip table. -/
theorem iterator_aborts_at_log31 :
    iterNew ⟨1, 0⟩ ⟨0, 1⟩ 31 = some ⟨⟨1, 0⟩, ⟨0, 1⟩, 31, 0,
        fun j => domainAt ⟨1, 0⟩ ⟨0, 1⟩ 31 (bitrev 31 j)⟩ ∧
      ∃ itl, iterSteps ⟨⟨1, 0⟩, ⟨0, 1⟩, 31, 0,
          fun j => domainAt ⟨1, 0⟩ ⟨0, 1⟩ 31 (bitrev 31 j)⟩ (2 ^ 27 - 1) =
          some itl ∧ iterNext itl = none := by
  constructor
  · rfl
  · have hs : CirclePoint.onCircle ⟨0, 1⟩ := by norm_num [CirclePoint.onCircle]
    obtain ⟨itn, hst, hs2, hk2, hi2, hcur⟩ :=
      iter_invariant ⟨1, 0⟩ ⟨0, 1⟩ 31 hs (by norm_num) (by norm_num) (2 ^ 27 - 1)
        (by norm_num)
    have hto : trailingOnes (2 ^ 27 - 1) = 27 := by decide
    have hadv : iterAdvance itn = none := by
      unfold iterAdvance
      rw [hs2, hk2, hi2, hto]
      rw [show iterFlips ⟨0, 1⟩ 31 27 = none from by
        unfold iterFlips
        rw [if_pos (by norm_num)]]
      rfl
    refine ⟨itn, hst, ?_⟩
    unfold iterNext
    rw [hk2, hi2, if_neg (by norm_num), hadv]
    rfl

/-- Concrete instantiation of the C5 iterator theorem at the smallest
accepted log size `k = 4`, with the centre `(1, 0)` and the on-circle step
`(0, 1)`. -/
theorem iterator_spec_witness :
    (∀ n, n < 2 ^ (4 - 4) →
      ∃ itn pr, iterSteps ⟨⟨1, 0⟩, ⟨0, 1⟩, 4, 0,
          fun j => domainAt ⟨1, 0⟩ ⟨0, 1⟩ 4 (bitrev 4 j)⟩ n = some itn ∧
        iterNext itn = some (some pr) ∧
        ∀ j, j < 16 → pr.1 j = domainAt ⟨1, 0⟩ ⟨0, 1⟩ 4 (bitrev 4 (16 * n + j))) ∧
      ∃ itl, iterSteps ⟨⟨1, 0⟩, ⟨0, 1⟩, 4, 0,
          fun j => domainAt ⟨1, 0⟩ ⟨0, 1⟩ 4 (bitrev 4 j)⟩ (2 ^ (4 - 4)) = some itl ∧
        iterNext itl = some none :=
  iterator_spec ⟨1, 0⟩ ⟨0, 1⟩ 4 (by norm_num [CirclePoint.onCircle]) (by norm_num) _ rfl

/-- C4: the message transpose and the state untranspose are exact mutual
inverses over their respective index sets: composing `transpose_msgs` with
`untranspose_msgs` is the identity on all 16×16 word arrays, and the
three-round state untranspose inverts the three-round state transpose on
all 8×16 word arrays. -/
theorem transpose_inverses (d : Nat → Vec16) (s : HSt Vec16) (k j v l : Nat)
    (hk : k < 16) (hj : j < 16) (hv : v < 8) (hl : l < 16) :
    untranspose_msgs (transpose_msgs d) k j = d k j ∧
      (untranspose_states (transpose_states s)).wd (vsplat 0) v l =
        (s.wd (vsplat 0) v) l :=
  ⟨untranspose_transpose_msgs d k j hk hj, untranspose_transpose_states s v l hv hl⟩

/-- Concrete instantiation of the C4 inverse theorem: the word array filled
with `16 k + j` at index `(3, 5)` and the state array filled with
`16 v + l` at index `(2, 9)`. -/
theorem transpose_inverses_witness :
    untranspose_msgs (transpose_msgs fun k j => 16 * k + j) 3 5 =
        (fun (k j : Nat) => 16 * k + j) 3 5 ∧
      (untranspose_states (transpose_states ⟨fun l => l, fun l => 16 + l,
          fun l => 32 + l, fun l => 48 + l, fun l => 64 + l, fun l => 80 + l,
          fun l => 96 + l, fun l => 112 + l⟩)).wd (vsplat 0) 2 9 =
      ((⟨fun l => l, fun l => 16 + l, fun l => 32 + l, fun l => 48 + l,
          fun l => 64 + l, fun l => 80 + l, fun l => 96 + l,
          fun l => 112 + l⟩ : HSt Vec16).wd (vsplat 0) 2) 9 :=
  transpose_inverses (fun k j => 16 * k + j) _ 3 5 2 9 (by norm_num) (by norm_num)
    (by norm_num) (by norm_num)
